import Mathlib

/-!
Verification of the 128-bit integer core of the arc library
(`src/include/int128.hpp`), portable two-limb backend (the
`ARC_HAS_NATIVE_INT128`-off branch, which the native branch must match
bit-for-bit by design).

Machine integers are embedded as follows:
* `uint64_t` values are `Nat` values `< 2 ^ 64`; every operation that can
  wrap reduces `% 2 ^ 64` exactly where the C++ `uint64_t` type wraps.
  Since `Nat` subtraction truncates at zero, the wrapping `uint64_t`
  subtraction `a - b` is encoded as `(a + 2 ^ 64 - b) % 2 ^ 64`, and the
  bitwise NOT of a 64-bit word `w` as its complement `2 ^ 64 - 1 - w`.
* `int64_t` values are `Int` values in `[-2 ^ 63, 2 ^ 63)`; operations wrap
  by two's complement (`wrap64s`), which is the observed behaviour the
  header relies on.  The C++ arithmetic right shift `h >> n` on `int64_t`
  is floor division by `2 ^ n` (`Int.fdiv`).
* `uint128` / `int128` mirror the portable storage `m_lo` / `m_hi`.
-/

set_option maxRecDepth 8192

namespace arc

/-- Truncation to 64 bits: the conversion every `uint64_t` computation
applies implicitly. -/
def mask64 (x : Nat) : Nat := x % 2 ^ 64

/-- Bitwise NOT of a 64-bit word (`~w` on `uint64_t`): the complement
`2 ^ 64 - 1 - w` of an in-range word. -/
def not64 (x : Nat) : Nat := 2 ^ 64 - 1 - x % 2 ^ 64

/-- The conversion `static_cast<int64_t>` applied to a `uint64_t` bit
pattern (two's-complement reinterpretation). -/
def toInt64 (x : Nat) : Int :=
  if x % 2 ^ 64 < 2 ^ 63 then (x % 2 ^ 64 : Int) else (x % 2 ^ 64 : Int) - 2 ^ 64

/-- The conversion `static_cast<uint64_t>` applied to an `int64_t` value
(bit-pattern reinterpretation). -/
def toUInt64 (x : Int) : Nat := (x % 2 ^ 64).toNat

/-- Two's-complement wraparound of an `int64_t` computation. -/
def wrap64s (x : Int) : Int := (x + 2 ^ 63) % 2 ^ 64 - 2 ^ 63

/-- The C++ arithmetic right shift `h >> n` on `int64_t`: sign-filling,
i.e. floor division by `2 ^ n`. -/
def sar64 (x : Int) (n : Nat) : Int := Int.fdiv x (2 ^ n)

/-- Two's-complement wraparound of a 128-bit signed computation (used only
to state properties, never inside an embedded operation). -/
def wrap128s (x : Int) : Int := (x + 2 ^ 127) % 2 ^ 128 - 2 ^ 127

/-- `arc::uint128`, portable storage: limbs `m_lo`, `m_hi` (`uint64_t`). -/
structure uint128 where
  m_lo : Nat
  m_hi : Nat
deriving DecidableEq, Repr

/-- `arc::int128`, portable storage: limbs `m_lo` (`uint64_t`),
`m_hi` (`int64_t`). -/
structure int128 where
  m_lo : Nat
  m_hi : Int
deriving DecidableEq, Repr

def uint128.low (v : uint128) : Nat := v.m_lo

def uint128.high (v : uint128) : Nat := v.m_hi

/-- `uint128::from_parts(high, low)`: the `mask64` encodes the `uint64_t`
type of the two parameters. -/
def uint128.from_parts (high low : Nat) : uint128 := ⟨mask64 low, mask64 high⟩

/-- The `uint128(unsigned long long)` constructor: `m_lo(v), m_hi(0)`. -/
def uint128.ofNat64 (v : Nat) : uint128 := ⟨mask64 v, 0⟩

def uint128.zero : uint128 := ⟨0, 0⟩

def uint128.one : uint128 := ⟨1, 0⟩

/-- Well-formedness: both limbs are in `uint64_t` range.  Every embedded
operation yields a well-formed value. -/
def uint128.wf (v : uint128) : Prop := v.m_lo < 2 ^ 64 ∧ v.m_hi < 2 ^ 64

/-- The number a `uint128` denotes: `high * 2^64 + low` (spec section 3). -/
def uint128.toNat (v : uint128) : Nat := v.m_hi * 2 ^ 64 + v.m_lo

instance uint128.wfDecidable (v : uint128) : Decidable v.wf :=
  inferInstanceAs (Decidable (v.m_lo < 2 ^ 64 ∧ v.m_hi < 2 ^ 64))

/-- `operator==(uint128, uint128)`: limb-wise equality. -/
def uint128.beq (a b : uint128) : Bool := a.low == b.low && a.high == b.high

/-- `operator<(uint128, uint128)`: high limb first, then low limb. -/
def uint128.lt (a b : uint128) : Bool :=
  if a.high == b.high then decide (a.low < b.low) else decide (a.high < b.high)

/-- `operator<=(lhs, rhs)` is `!(rhs < lhs)`. -/
def uint128.le (a b : uint128) : Bool := !(uint128.lt b a)

/-- `operator>=(lhs, rhs)` is `!(lhs < rhs)`. -/
def uint128.ge (a b : uint128) : Bool := !(uint128.lt a b)

/-- `operator+(uint128, uint128)`, portable branch: limb-wise add, carry
into the high limb iff the wrapped low result is less than `lhs.low()`. -/
def uint128.add (lhs rhs : uint128) : uint128 :=
  let result := uint128.from_parts (lhs.high + rhs.high) (lhs.low + rhs.low)
  if result.low < lhs.low then uint128.from_parts (result.high + 1) result.low
  else result

/-- `operator-(uint128, uint128)`, portable branch: limb-wise wrapping
subtract, borrow iff `lhs.low() < rhs.low()`. -/
def uint128.sub (lhs rhs : uint128) : uint128 :=
  let result := uint128.from_parts (lhs.high + 2 ^ 64 - rhs.high) (lhs.low + 2 ^ 64 - rhs.low)
  if lhs.low < rhs.low then uint128.from_parts (result.high + 2 ^ 64 - 1) result.low
  else result

/-- `operator<<(uint128, int)`, portable branch. -/
def uint128.shl (lhs : uint128) (amount : Nat) : uint128 :=
  if amount == 0 then lhs
  else if 128 ≤ amount then uint128.zero
  else if 64 ≤ amount then uint128.from_parts (lhs.low <<< (amount - 64)) 0
  else uint128.from_parts (mask64 (lhs.high <<< amount) ||| (lhs.low >>> (64 - amount)))
    (lhs.low <<< amount)

/-- `operator>>(uint128, int)`, portable branch (zero-filling). -/
def uint128.shr (lhs : uint128) (amount : Nat) : uint128 :=
  if amount == 0 then lhs
  else if 128 ≤ amount then uint128.zero
  else if 64 ≤ amount then uint128.from_parts 0 (lhs.high >>> (amount - 64))
  else uint128.from_parts (lhs.high >>> amount)
    ((lhs.low >>> amount) ||| mask64 (lhs.high <<< (64 - amount)))

/-- `operator|(uint128, uint128)`: limb-wise. -/
def uint128.lor (a b : uint128) : uint128 :=
  uint128.from_parts (a.high ||| b.high) (a.low ||| b.low)

/-- `operator&(uint128, uint128)`: limb-wise. -/
def uint128.land (a b : uint128) : uint128 :=
  uint128.from_parts (a.high &&& b.high) (a.low &&& b.low)

/-- Unary `operator-(uint128)`: `from_parts(~high + (low == 0 ? 1 : 0), ~low + 1)`. -/
def uint128.neg (v : uint128) : uint128 :=
  uint128.from_parts (not64 v.high + if v.low == 0 then 1 else 0) (not64 v.low + 1)

/-- `operator bool()` on `uint128`: `m_lo || m_hi`. -/
def uint128.toBool (v : uint128) : Bool := !(v.m_lo == 0) || !(v.m_hi == 0)

/-- `operator!(uint128)`: `!val.high() && !val.low()`. -/
def uint128.bang (v : uint128) : Bool := v.high == 0 && v.low == 0

/-- Narrowing conversion `operator unsigned long long`: `low()`. -/
def uint128.toU64 (v : uint128) : Nat := v.low

/-- Narrowing conversion `operator unsigned int`: truncates `low()`. -/
def uint128.toU32 (v : uint128) : Nat := v.low % 2 ^ 32

/-- Narrowing conversion `operator unsigned short`: truncates `low()`. -/
def uint128.toU16 (v : uint128) : Nat := v.low % 2 ^ 16

/-- Narrowing conversion `operator unsigned char`: truncates `low()`. -/
def uint128.toU8 (v : uint128) : Nat := v.low % 2 ^ 8

/-- `std::numeric_limits<arc::uint128>::max()`. -/
def uint128.max_value : uint128 := uint128.from_parts (2 ^ 64 - 1) (2 ^ 64 - 1)

namespace detail

/-- `detail::multiply_portable`: 32-bit-limb cross multiplication. -/
def multiply_portable (lhs_high lhs_low rhs_high rhs_low : Nat) : uint128 :=
  let a32 := lhs_low >>> 32
  let a00 := lhs_low &&& 0xffffffff
  let b32 := rhs_low >>> 32
  let b00 := rhs_low &&& 0xffffffff
  let result := uint128.from_parts (lhs_high * rhs_low + lhs_low * rhs_high + a32 * b32)
    (a00 * b00)
  let result := result.add ((uint128.ofNat64 (a32 * b00)).shl 32)
  let result := result.add ((uint128.ofNat64 (a00 * b32)).shl 32)
  result

/-- The `while` loop of `detail::divide_portable` that finds the initial
shift: `while (temp <= remainder && temp.high() < (1ULL << 63)) { temp <<= 1; ++shift; }`.
The loop body runs at most 128 times (the shifted divisor reaches bit 127
and the guard fails), so fuel `129` at the call site makes the recursion
exact. -/
def find_shift (remainder temp : uint128) (shift : Nat) (fuel : Nat) : Nat :=
  match fuel with
  | 0 => shift
  | fuel + 1 =>
    if uint128.le temp remainder && decide (temp.high < 2 ^ 63) then
      find_shift remainder (temp.shl 1) (shift + 1) fuel
    else shift

/-- One iteration of the `for` loop of `detail::divide_portable`. -/
def div_step (rhs remainder quotient : uint128) (i : Nat) : uint128 × uint128 :=
  let shifted_divisor := rhs.shl i
  if uint128.ge remainder shifted_divisor then
    (remainder.sub shifted_divisor, quotient.lor (uint128.one.shl i))
  else (remainder, quotient)

/-- The `for (int i = shift; i >= 0; i--)` loop of `detail::divide_portable`,
counting `i` down to and including `0`; the state is `(remainder, quotient)`. -/
def div_loop (rhs remainder quotient : uint128) (i : Nat) : uint128 × uint128 :=
  match i with
  | 0 => div_step rhs remainder quotient 0
  | j + 1 =>
    let s := div_step rhs remainder quotient (j + 1)
    div_loop rhs s.1 s.2 j

/-- `detail::divide_portable`: binary long division. -/
def divide_portable (lhs rhs : uint128) : uint128 :=
  if rhs.beq uint128.zero || uint128.lt lhs rhs then uint128.zero
  else
    let shift := find_shift lhs rhs 0 129
    (div_loop rhs lhs uint128.zero shift).2

end detail

/-- `operator*(uint128, uint128)`, portable branch. -/
def uint128.mul (lhs rhs : uint128) : uint128 :=
  detail.multiply_portable lhs.high lhs.low rhs.high rhs.low

/-- `operator/(uint128, uint128)`, portable branch. -/
def uint128.div (lhs rhs : uint128) : uint128 := detail.divide_portable lhs rhs

/-- `operator%(uint128, uint128)`, portable branch:
`if (rhs == 0) return 0; return lhs - (lhs / rhs) * rhs;`. -/
def uint128.mod (lhs rhs : uint128) : uint128 :=
  if rhs.beq uint128.zero then uint128.zero
  else lhs.sub ((lhs.div rhs).mul rhs)

def int128.low (v : int128) : Nat := v.m_lo

def int128.high (v : int128) : Int := v.m_hi

/-- `int128::from_parts(high, low)`: the wraps encode the `int64_t` /
`uint64_t` types of the two parameters. -/
def int128.from_parts (high : Int) (low : Nat) : int128 := ⟨mask64 low, wrap64s high⟩

/-- The `int128(int)` constructor: `m_lo(static_cast<uint64_t>(v))`,
`m_hi(v < 0 ? -1 : 0)`. -/
def int128.ofInt (v : Int) : int128 := ⟨toUInt64 v, if v < 0 then -1 else 0⟩

/-- The `int128(uint128)` conversion: bit reinterpretation. -/
def int128.ofUint (v : uint128) : int128 := ⟨v.low, toInt64 v.high⟩

/-- The `uint128(int128)` conversion: bit reinterpretation. -/
def uint128.ofInt128 (v : int128) : uint128 := ⟨v.low, toUInt64 v.high⟩

def int128.zero : int128 := ⟨0, 0⟩

/-- Well-formedness: `m_lo` in `uint64_t` range, `m_hi` in `int64_t` range. -/
def int128.wf (v : int128) : Prop :=
  v.m_lo < 2 ^ 64 ∧ -(2 ^ 63) ≤ v.m_hi ∧ v.m_hi < 2 ^ 63

/-- The integer an `int128` denotes: `high * 2^64 + low` with `high` signed. -/
def int128.toZ (v : int128) : Int := v.m_hi * 2 ^ 64 + (v.m_lo : Int)

instance int128.wfDecidable (v : int128) : Decidable v.wf :=
  inferInstanceAs (Decidable (v.m_lo < 2 ^ 64 ∧ -(2 ^ 63) ≤ v.m_hi ∧ v.m_hi < 2 ^ 63))

/-- The unsigned bit pattern of an `int128` (value of `uint128(v)`). -/
def int128.pat (v : int128) : Nat := toUInt64 v.m_hi * 2 ^ 64 + v.m_lo

/-- `operator==(int128, int128)`: limb-wise equality. -/
def int128.beq (a b : int128) : Bool := a.low == b.low && decide (a.high = b.high)

/-- `operator<(int128, int128)`: high limb first (signed), then low limb. -/
def int128.lt (a b : int128) : Bool :=
  if a.high = b.high then decide (a.low < b.low) else decide (a.high < b.high)

/-- `operator+(int128, int128)`, portable branch: `int128(uint128(lhs) + uint128(rhs))`. -/
def int128.add (lhs rhs : int128) : int128 :=
  int128.ofUint ((uint128.ofInt128 lhs).add (uint128.ofInt128 rhs))

/-- `operator-(int128, int128)`, portable branch: `int128(uint128(lhs) - uint128(rhs))`. -/
def int128.sub (lhs rhs : int128) : int128 :=
  int128.ofUint ((uint128.ofInt128 lhs).sub (uint128.ofInt128 rhs))

/-- `operator*(int128, int128)`, portable branch: `int128(uint128(lhs) * uint128(rhs))`. -/
def int128.mul (lhs rhs : int128) : int128 :=
  int128.ofUint ((uint128.ofInt128 lhs).mul (uint128.ofInt128 rhs))

/-- Unary `operator-(int128)`: `from_parts(~high + (low == 0 ? 1 : 0), ~low + 1)`;
`~h` on `int64_t` is `-h - 1`. -/
def int128.neg (val : int128) : int128 :=
  int128.from_parts (-val.high - 1 + if val.low == 0 then 1 else 0) (not64 val.low + 1)

/-- `operator~(int128)`: `from_parts(~high, ~low)`. -/
def int128.lnot (val : int128) : int128 :=
  int128.from_parts (-val.high - 1) (not64 val.low)

/-- `operator/(int128, int128)`, portable branch: unsigned division on
absolute values, quotient sign is the XOR of the operand signs. -/
def int128.div (lhs rhs : int128) : int128 :=
  let negative_result := decide (lhs.high < 0) != decide (rhs.high < 0)
  let abs_dividend := if lhs.high < 0 then (uint128.ofInt128 lhs).neg else uint128.ofInt128 lhs
  let abs_divisor := if rhs.high < 0 then (uint128.ofInt128 rhs).neg else uint128.ofInt128 rhs
  let result := abs_dividend.div abs_divisor
  if negative_result then (int128.ofUint result).neg else int128.ofUint result

/-- `operator%(int128, int128)`, portable branch: unsigned modulo on
absolute values, remainder sign follows the dividend. -/
def int128.mod (lhs rhs : int128) : int128 :=
  let negative_result := decide (lhs.high < 0)
  let abs_dividend := if lhs.high < 0 then (uint128.ofInt128 lhs).neg else uint128.ofInt128 lhs
  let abs_divisor := if rhs.high < 0 then (uint128.ofInt128 rhs).neg else uint128.ofInt128 rhs
  let result := abs_dividend.mod abs_divisor
  if negative_result then (int128.ofUint result).neg else int128.ofUint result

/-- `operator>>(int128, int)`, portable branch: arithmetic shift. -/
def int128.shr (lhs : int128) (amount : Nat) : int128 :=
  if amount == 0 then lhs
  else if 128 ≤ amount then (if lhs.high < 0 then int128.ofInt (-1) else int128.ofInt 0)
  else if 64 ≤ amount then
    int128.from_parts (if lhs.high < 0 then -1 else 0) (toUInt64 (sar64 lhs.high (amount - 64)))
  else
    int128.from_parts (sar64 lhs.high amount)
      ((lhs.low >>> amount) ||| mask64 (toUInt64 lhs.high <<< (64 - amount)))

/-- `operator bool()` on `int128`: `m_lo || m_hi`. -/
def int128.toBool (v : int128) : Bool := !(v.m_lo == 0) || !(v.m_hi == 0)

/-- `operator!(int128)`: `!val.high() && !val.low()`. -/
def int128.bang (v : int128) : Bool := decide (v.high = 0) && v.low == 0

/-- `std::numeric_limits<arc::int128>::min()`. -/
def int128.min_value : int128 := int128.from_parts (-(2 ^ 63)) 0

/-- `std::numeric_limits<arc::int128>::max()`. -/
def int128.max_value : int128 := int128.from_parts (2 ^ 63 - 1) (2 ^ 64 - 1)

/-- Modelled from the spec: `std::hash<uint64_t>`, which the header uses
but does not define, is the identity on the 64-bit value on the major
standard-library implementations. -/
def hash64 (x : Nat) : Nat := x

/-- `std::hash<arc::uint128>`: `hash(low) ^ (hash(high) << 1)` on a 64-bit
`size_t` (the shift wraps). -/
def uint128.hashVal (v : uint128) : Nat :=
  hash64 v.low ^^^ mask64 (hash64 v.high <<< 1)

/-- `std::hash<arc::int128>`: same mixing on the reinterpreted high limb. -/
def int128.hashVal (v : int128) : Nat :=
  hash64 v.low ^^^ mask64 (hash64 (toUInt64 v.high) <<< 1)

/-- The character `'0' + d` the formatter stores for digit `d`. -/
def digitChar (d : Nat) : Char := Char.ofNat (48 + d)

namespace detail

/-- The digit loop of `operator<<(std::ostream&, uint128)`: repeated
division by ten.  The C++ code stores digits into a 40-byte buffer in
least-significant-first order and then emits them in reverse; consing each
new digit onto the front of the emitted list models exactly that reversed
emission.  Fuel `40` is the buffer size; a value below `2 ^ 128 < 10 ^ 40`
has at most 39 digits, so the fuel never runs out. -/
def dec_loop (fuel : Nat) (v : uint128) (acc : List Char) : List Char :=
  match fuel with
  | 0 => acc
  | fuel + 1 =>
    if v.beq uint128.zero then acc
    else
      let quotient := v.div (uint128.ofNat64 10)
      let remainder := v.sub (quotient.mul (uint128.ofNat64 10))
      dec_loop fuel quotient (digitChar remainder.low :: acc)

end detail

/-- `operator<<(std::ostream&, uint128)` as the string it writes. -/
def uint128.to_string (v : uint128) : String :=
  if v.beq uint128.zero then "0" else String.mk (detail.dec_loop 40 v [])

/-- `operator<<(std::ostream&, int128)` as the string it writes:
a `'-'` then the unsigned rendering of the negated value. -/
def int128.to_string (v : int128) : String :=
  if v.high < 0 then "-" ++ (uint128.ofInt128 v.neg).to_string
  else (uint128.ofInt128 v).to_string

/-- The canonical big-endian decimal digit string of `n` (reference for
the formatter claims): `Nat.digits` is little-endian, so reverse it. -/
def decimalSpec (n : Nat) : String :=
  if n = 0 then "0" else String.mk (((Nat.digits 10 n).map digitChar).reverse)

theorem lor_disjoint : ∀ (k m b : Nat), b < 2 ^ k → (2 ^ k * m) ||| b = 2 ^ k * m + b := by
  intro k
  induction k with
  | zero =>
    intro m b hb
    interval_cases b
    simp
  | succ k ih =>
    intro m b hb
    have hps : (2 : Nat) ^ (k + 1) = 2 * 2 ^ k := by rw [pow_succ]; ring
    have hb' : b / 2 < 2 ^ k := by omega
    set c : Bool := decide (b % 2 = 1) with hc
    have hcb : b = 2 * (b / 2) + c.toNat := by
      rcases Nat.mod_two_eq_zero_or_one b with h | h <;> simp [hc, h] <;> omega
    have hdecomp_b : b = Nat.bit c (b / 2) := by rw [Nat.bit_val]; omega
    have hdecomp_a : 2 ^ (k + 1) * m = Nat.bit false (2 ^ k * m) := by
      rw [Nat.bit_val, hps, mul_assoc]
      simp
    rw [hdecomp_a]
    conv_lhs => rw [hdecomp_b]
    rw [Nat.lor_bit, Bool.false_or, ih m (b / 2) hb', Nat.bit_val, Nat.bit_val]
    simp only [Bool.toNat_false]
    omega

theorem lor_disjoint_left (k m b : Nat) (hb : b < 2 ^ k) :
    b ||| (2 ^ k * m) = b + 2 ^ k * m := by
  rw [Nat.lor_comm, lor_disjoint k m b hb, Nat.add_comm]

theorem uint128.from_parts_wf (h l : Nat) : (uint128.from_parts h l).wf := by
  constructor <;> simp [uint128.from_parts, mask64] <;> omega

theorem uint128.zero_wf : uint128.zero.wf := by
  constructor <;> simp [uint128.zero]

theorem uint128.ofNat64_wf (v : Nat) : (uint128.ofNat64 v).wf := by
  constructor <;> simp [uint128.ofNat64, mask64] <;> omega

theorem uint128.add_wf (a b : uint128) : (a.add b).wf := by
  simp only [uint128.add]
  split <;> exact uint128.from_parts_wf _ _

theorem uint128.sub_wf (a b : uint128) : (a.sub b).wf := by
  simp only [uint128.sub]
  split <;> exact uint128.from_parts_wf _ _

theorem uint128.shl_wf (a : uint128) (n : Nat) (ha : a.wf) : (a.shl n).wf := by
  unfold uint128.shl
  split
  · exact ha
  · split
    · exact uint128.zero_wf
    · split <;> exact uint128.from_parts_wf _ _

theorem uint128.lor_wf (a b : uint128) : (a.lor b).wf := uint128.from_parts_wf _ _

theorem uint128.neg_wf (a : uint128) : a.neg.wf := uint128.from_parts_wf _ _

theorem uint128.mul_wf (a b : uint128) : (a.mul b).wf := by
  unfold uint128.mul detail.multiply_portable
  exact uint128.add_wf _ _

theorem uint128.toNat_lt (v : uint128) (hv : v.wf) : v.toNat < 2 ^ 128 := by
  obtain ⟨h1, h2⟩ := hv
  simp only [uint128.toNat]
  omega

theorem uint128.toNat_inj (a b : uint128) (ha : a.wf) (hb : b.wf)
    (h : a.toNat = b.toNat) : a = b := by
  obtain ⟨ha1, ha2⟩ := ha
  obtain ⟨hb1, hb2⟩ := hb
  have e1 : a.m_lo = b.m_lo := by simp only [uint128.toNat] at h; omega
  have e2 : a.m_hi = b.m_hi := by simp only [uint128.toNat] at h; omega
  cases a
  cases b
  simp only [uint128.mk.injEq]
  exact ⟨e1, e2⟩

theorem uint128.toNat_from_parts (h l : Nat) :
    (uint128.from_parts h l).toNat = (h % 2 ^ 64) * 2 ^ 64 + l % 2 ^ 64 := by
  simp [uint128.from_parts, uint128.toNat, mask64]

theorem uint128.toNat_ofNat64 (v : Nat) (hv : v < 2 ^ 64) :
    (uint128.ofNat64 v).toNat = v := by
  simp [uint128.ofNat64, uint128.toNat, mask64]
  omega

theorem uint128.beq_iff (a b : uint128) : a.beq b = true ↔ a = b := by
  obtain ⟨a1, a2⟩ := a
  obtain ⟨b1, b2⟩ := b
  simp [uint128.beq, uint128.low, uint128.high, and_comm]

theorem uint128.lt_iff (a b : uint128) (ha : a.wf) (hb : b.wf) :
    a.lt b = true ↔ a.toNat < b.toNat := by
  obtain ⟨ha1, ha2⟩ := ha
  obtain ⟨hb1, hb2⟩ := hb
  simp only [uint128.lt, uint128.low, uint128.high, uint128.toNat]
  split
  · next heq => simp at heq ⊢; omega
  · next hne => simp at hne ⊢; omega

theorem uint128.le_iff (a b : uint128) (ha : a.wf) (hb : b.wf) :
    a.le b = true ↔ a.toNat ≤ b.toNat := by
  have h := uint128.lt_iff b a hb ha
  rcases Bool.eq_false_or_eq_true (b.lt a) with hc | hc
  · rw [hc] at h
    simp only [uint128.le, hc, Bool.not_true]
    constructor
    · intro hf; cases hf
    · intro hle
      have := h.mp rfl
      omega
  · rw [hc] at h
    simp only [Bool.false_eq_true, false_iff, not_lt] at h
    simp only [uint128.le, hc, Bool.not_false, true_iff]
    omega

theorem uint128.ge_iff (a b : uint128) (ha : a.wf) (hb : b.wf) :
    a.ge b = true ↔ b.toNat ≤ a.toNat := by
  have h := uint128.lt_iff a b ha hb
  rcases Bool.eq_false_or_eq_true (a.lt b) with hc | hc
  · rw [hc] at h
    simp only [uint128.ge, hc, Bool.not_true]
    constructor
    · intro hf; cases hf
    · intro hle
      have := h.mp rfl
      omega
  · rw [hc] at h
    simp only [Bool.false_eq_true, false_iff, not_lt] at h
    simp only [uint128.ge, hc, Bool.not_false, true_iff]
    omega

theorem uint128.toNat_add (a b : uint128) (ha : a.wf) (hb : b.wf) :
    (a.add b).toNat = (a.toNat + b.toNat) % 2 ^ 128 := by
  obtain ⟨ha1, ha2⟩ := ha
  obtain ⟨hb1, hb2⟩ := hb
  simp only [uint128.add, uint128.from_parts, uint128.low, uint128.high, mask64, uint128.toNat]
  split <;> simp only [uint128.toNat] <;> omega

theorem uint128.toNat_sub (a b : uint128) (ha : a.wf) (hb : b.wf) :
    (a.sub b).toNat = (a.toNat + 2 ^ 128 - b.toNat) % 2 ^ 128 := by
  obtain ⟨ha1, ha2⟩ := ha
  obtain ⟨hb1, hb2⟩ := hb
  simp only [uint128.sub, uint128.from_parts, uint128.low, uint128.high, mask64, uint128.toNat]
  split <;> simp only [uint128.toNat] <;> omega

theorem uint128.toNat_sub_exact (a b : uint128) (ha : a.wf) (hb : b.wf)
    (hle : b.toNat ≤ a.toNat) : (a.sub b).toNat = a.toNat - b.toNat := by
  rw [uint128.toNat_sub a b ha hb]
  have := uint128.toNat_lt a ha
  omega

theorem uint128.toNat_neg (v : uint128) (hv : v.wf) :
    (v.neg).toNat = (2 ^ 128 - v.toNat) % 2 ^ 128 := by
  obtain ⟨h1, h2⟩ := hv
  simp only [uint128.neg, uint128.from_parts, uint128.low, uint128.high, not64, mask64,
    uint128.toNat]
  rcases Nat.eq_zero_or_pos v.m_lo with h | h
  · simp [h]
    omega
  · have : (v.m_lo == 0) = false := by simp; omega
    simp [this]
    omega


theorem uint128.toNat_shl_exact (v : uint128) (n : Nat) (hv : v.wf)
    (h : v.toNat * 2 ^ n < 2 ^ 128) : (v.shl n).toNat = v.toNat * 2 ^ n := by
  obtain ⟨h1, h2⟩ := hv
  simp only [uint128.shl]
  split
  · next h0 =>
    simp only [beq_iff_eq] at h0
    subst h0
    simp
  split
  · next h128 =>
    have hz : v.toNat = 0 := by
      by_contra hnz
      have e1 : 2 ^ 128 ≤ 2 ^ n := Nat.pow_le_pow_right (by norm_num) h128
      have e2 : 1 * 2 ^ 128 ≤ v.toNat * 2 ^ n := Nat.mul_le_mul (by omega) e1
      omega
    have hz1 : v.m_lo = 0 := by simp only [uint128.toNat] at hz; omega
    have hz2 : v.m_hi = 0 := by simp only [uint128.toNat] at hz; omega
    simp [uint128.zero, uint128.toNat, hz1, hz2]
  next h128 =>
  split
  · next h64 =>
    obtain ⟨k, rfl⟩ : ∃ k, n = 64 + k := ⟨n - 64, by omega⟩
    rw [pow_add] at h ⊢
    have hP : 1 ≤ 2 ^ k := Nat.one_le_two_pow
    have hhi : v.m_hi = 0 := by
      by_contra hz
      have e1 : 2 ^ 64 ≤ v.toNat := by simp only [uint128.toNat]; omega
      have e2 : 2 ^ 64 * (2 ^ 64 * 1) ≤ v.toNat * (2 ^ 64 * 2 ^ k) :=
        Nat.mul_le_mul e1 (Nat.mul_le_mul_left _ hP)
      omega
    have hto : v.toNat = v.m_lo := by simp [uint128.toNat, hhi]
    rw [hto] at h ⊢
    have hre : v.m_lo * (2 ^ 64 * 2 ^ k) = v.m_lo * 2 ^ k * 2 ^ 64 := by ring
    rw [hre] at h ⊢
    simp only [uint128.from_parts, uint128.toNat, uint128.low, mask64]
    simp only [Nat.shiftLeft_eq]
    have hk : 64 + k - 64 = k := by omega
    rw [hk]
    omega
  · next h64 =>
    have hn64 : n < 64 := by omega
    obtain ⟨j, hj⟩ : ∃ j, 64 = n + j := ⟨64 - n, by omega⟩
    have hsplit : (2 : Nat) ^ 64 = 2 ^ j * 2 ^ n := by rw [hj, pow_add]; ring
    have hhi_small : v.m_hi * 2 ^ n < 2 ^ 64 := by
      have e1 : v.m_hi * 2 ^ 64 ≤ v.toNat := by simp only [uint128.toNat]; omega
      have e2 : v.m_hi * 2 ^ 64 * 2 ^ n ≤ v.toNat * 2 ^ n := Nat.mul_le_mul_right _ e1
      have e3 : v.m_hi * 2 ^ 64 * 2 ^ n = v.m_hi * 2 ^ n * 2 ^ 64 := by ring
      by_contra hge
      push_neg at hge
      have e4 : 2 ^ 64 * 2 ^ 64 ≤ v.m_hi * 2 ^ n * 2 ^ 64 := Nat.mul_le_mul_right _ hge
      omega
    have hhi_lt : v.m_hi < 2 ^ j := by
      by_contra hge
      push_neg at hge
      have e1 : 2 ^ j * 2 ^ n ≤ v.m_hi * 2 ^ n := Nat.mul_le_mul_right _ hge
      omega
    obtain ⟨q, r, hr, hdecomp⟩ : ∃ q r, r < 2 ^ j ∧ v.m_lo = 2 ^ j * q + r :=
      ⟨v.m_lo / 2 ^ j, v.m_lo % 2 ^ j, Nat.mod_lt _ (Nat.two_pow_pos j),
        (Nat.div_add_mod _ _).symm⟩
    have hdiv : v.m_lo >>> j = q := by
      rw [Nat.shiftRight_eq_div_pow, hdecomp, Nat.mul_add_div (Nat.two_pow_pos j),
        Nat.div_eq_of_lt hr]
      omega
    have hq_lt : q < 2 ^ n := by
      have e0 : 2 ^ j * q ≤ v.m_lo := by omega
      by_contra hge
      push_neg at hge
      have e1 : 2 ^ j * 2 ^ n ≤ 2 ^ j * q := Nat.mul_le_mul_left _ hge
      omega
    have hmod : v.m_lo % 2 ^ j = r := by
      rw [hdecomp, Nat.mul_add_mod, Nat.mod_eq_of_lt hr]
    have hmask_hi : (v.m_hi <<< n) % 2 ^ 64 = v.m_hi * 2 ^ n := by
      rw [Nat.shiftLeft_eq, Nat.mod_eq_of_lt hhi_small]
    have hlor : v.m_hi * 2 ^ n ||| v.m_lo >>> j = v.m_hi * 2 ^ n + q := by
      rw [hdiv, Nat.mul_comm v.m_hi (2 ^ n), lor_disjoint n v.m_hi q hq_lt,
        Nat.mul_comm (2 ^ n) v.m_hi]
    have hsplit' : (2 : Nat) ^ 64 = 2 ^ n * 2 ^ j := by rw [hj, pow_add]
    have hlow : (v.m_lo <<< n) % 2 ^ 64 = r * 2 ^ n := by
      rw [Nat.shiftLeft_eq, hsplit, Nat.mul_mod_mul_right, hmod]
    have hj64 : 64 - n = j := by omega
    have hsum_lt : v.m_hi * 2 ^ n + q < 2 ^ 64 := by
      have e1 : (v.m_hi + 1) * 2 ^ n ≤ 2 ^ j * 2 ^ n := Nat.mul_le_mul_right _ (by omega)
      have e2 : (v.m_hi + 1) * 2 ^ n = v.m_hi * 2 ^ n + 2 ^ n := by ring
      omega
    simp only [uint128.from_parts, uint128.toNat, uint128.low, uint128.high, mask64]
    rw [hj64, hmask_hi, hlor, hlow, Nat.mod_eq_of_lt hsum_lt, hdecomp, hsplit]
    ring

theorem uint128.toNat_one_shl (i : Nat) (hi : i < 128) :
    (uint128.one.shl i).toNat = 2 ^ i := by
  have h : uint128.one.toNat * 2 ^ i < 2 ^ 128 := by
    have e : uint128.one.toNat = 1 := by simp [uint128.one, uint128.toNat]
    rw [e, Nat.one_mul]
    exact Nat.pow_lt_pow_right (by norm_num) hi
  rw [uint128.toNat_shl_exact uint128.one i (by constructor <;> simp [uint128.one]) h]
  simp [uint128.one, uint128.toNat]

theorem uint128.one_shl_limbs (i : Nat) (hi : i < 128) :
    (uint128.one.shl i) = if i < 64 then (⟨2 ^ i, 0⟩ : uint128) else ⟨0, 2 ^ (i - 64)⟩ := by
  simp only [uint128.shl, uint128.one, uint128.from_parts, uint128.low, uint128.high, mask64]
  split
  · next h0 =>
    simp only [beq_iff_eq] at h0
    subst h0
    norm_num
  next h0 =>
  simp only [beq_iff_eq] at h0
  split
  · next h128 => omega
  next h128 =>
  split
  · next h64 =>
    have hn : ¬ i < 64 := by omega
    simp only [hn, if_false]
    simp only [Nat.shiftLeft_eq, Nat.one_mul, uint128.mk.injEq]
    have hlt : 2 ^ (i - 64) < 2 ^ 64 := Nat.pow_lt_pow_right (by norm_num) (by omega)
    exact ⟨rfl, Nat.mod_eq_of_lt hlt⟩
  · next h64 =>
    have hi64 : i < 64 := by omega
    simp only [hi64, if_true]
    have e1 : (0 : Nat) <<< i = 0 := by simp [Nat.shiftLeft_eq]
    have e2 : (1 : Nat) >>> (64 - i) = 0 := by
      rw [Nat.shiftRight_eq_div_pow]
      exact Nat.div_eq_of_lt (Nat.one_lt_two_pow (by omega))
    rw [e1, e2]
    simp only [Nat.zero_mod, Nat.zero_or, uint128.mk.injEq]
    have hlt : 2 ^ i < 2 ^ 64 := Nat.pow_lt_pow_right (by norm_num) hi64
    rw [Nat.shiftLeft_eq, Nat.one_mul, Nat.mod_eq_of_lt hlt]
    exact ⟨rfl, trivial⟩

theorem uint128.toNat_lor_pow2 (q : uint128) (i : Nat) (hq : q.wf) (hi : i < 128)
    (m : Nat) (hm : q.toNat = 2 ^ (i + 1) * m) :
    (q.lor (uint128.one.shl i)).toNat = q.toNat + 2 ^ i := by
  obtain ⟨hq1, hq2⟩ := hq
  rw [uint128.one_shl_limbs i hi]
  by_cases hi64 : i < 64
  · simp only [hi64, if_true]
    have hd64 : (2 : Nat) ^ (i + 1) ∣ 2 ^ 64 := pow_dvd_pow 2 (by omega)
    have hdvd : 2 ^ (i + 1) ∣ q.m_lo := by
      have e1 : 2 ^ (i + 1) ∣ q.m_hi * 2 ^ 64 := Dvd.dvd.mul_left hd64 _
      have e2 : 2 ^ (i + 1) ∣ q.toNat := ⟨m, hm⟩
      have e3 : 2 ^ (i + 1) ∣ q.m_hi * 2 ^ 64 + q.m_lo := by
        simpa only [uint128.toNat] using e2
      exact (Nat.dvd_add_right e1).mp e3
    obtain ⟨t, ht⟩ := hdvd
    have hilt : (2 : Nat) ^ i < 2 ^ (i + 1) := Nat.pow_lt_pow_right (by norm_num) (by omega)
    have hlor : q.m_lo ||| 2 ^ i = q.m_lo + 2 ^ i := by
      rw [ht, lor_disjoint (i + 1) t (2 ^ i) hilt]
    have hepow : (2 : Nat) ^ (64 - (i + 1)) * 2 ^ (i + 1) = 2 ^ 64 := by
      rw [← pow_add]
      congr 1
      omega
    have htP : t < 2 ^ (64 - (i + 1)) := by
      by_contra hge
      push_neg at hge
      have e1 : 2 ^ (64 - (i + 1)) * 2 ^ (i + 1) ≤ t * 2 ^ (i + 1) :=
        Nat.mul_le_mul_right _ hge
      have e2 : t * 2 ^ (i + 1) = q.m_lo := by rw [ht]; ring
      omega
    have hsum_lt : q.m_lo + 2 ^ i < 2 ^ 64 := by
      have e1 : (t + 1) * 2 ^ (i + 1) ≤ 2 ^ (64 - (i + 1)) * 2 ^ (i + 1) :=
        Nat.mul_le_mul_right _ (by omega)
      have e2 : q.m_lo + 2 ^ (i + 1) = (t + 1) * 2 ^ (i + 1) := by rw [ht]; ring
      omega
    simp only [uint128.lor, uint128.from_parts, uint128.low, uint128.high, mask64,
      uint128.toNat]
    simp only [Nat.or_zero]
    rw [hlor, Nat.mod_eq_of_lt hsum_lt, Nat.mod_eq_of_lt hq2]
    omega
  · simp only [hi64, if_false]
    have hd64 : (2 : Nat) ^ 64 ∣ 2 ^ (i + 1) := pow_dvd_pow 2 (by omega)
    have hlo0 : q.m_lo = 0 := by
      obtain ⟨c, hc⟩ : (2 : Nat) ^ 64 ∣ q.toNat := hm ▸ Dvd.dvd.mul_right hd64 m
      simp only [uint128.toNat] at hc
      omega
    have hcancel : q.m_hi * 2 ^ 64 = 2 ^ (i + 1) * m := by
      simp only [uint128.toNat] at hm
      omega
    have hsplit : (2 : Nat) ^ (i + 1) = 2 ^ (i - 63) * 2 ^ 64 := by
      rw [← pow_add]
      congr 1
      omega
    have hhi_eq : q.m_hi = 2 ^ (i - 63) * m := by
      have e1 : q.m_hi * 2 ^ 64 = 2 ^ (i - 63) * m * 2 ^ 64 := by
        rw [hcancel, hsplit]
        ring
      exact Nat.eq_of_mul_eq_mul_right (by norm_num) e1
    have hilt : (2 : Nat) ^ (i - 64) < 2 ^ (i - 63) :=
      Nat.pow_lt_pow_right (by norm_num) (by omega)
    have hlor : q.m_hi ||| 2 ^ (i - 64) = q.m_hi + 2 ^ (i - 64) := by
      rw [hhi_eq, lor_disjoint (i - 63) m (2 ^ (i - 64)) hilt]
    have hepow : (2 : Nat) ^ (64 - (i - 63)) * 2 ^ (i - 63) = 2 ^ 64 := by
      rw [← pow_add]
      congr 1
      omega
    have hmP : m < 2 ^ (64 - (i - 63)) := by
      by_contra hge
      push_neg at hge
      have e1 : 2 ^ (64 - (i - 63)) * 2 ^ (i - 63) ≤ m * 2 ^ (i - 63) :=
        Nat.mul_le_mul_right _ hge
      have e2 : m * 2 ^ (i - 63) = q.m_hi := by rw [hhi_eq]; ring
      omega
    have hsum_lt : q.m_hi + 2 ^ (i - 64) < 2 ^ 64 := by
      have e1 : (m + 1) * 2 ^ (i - 63) ≤ 2 ^ (64 - (i - 63)) * 2 ^ (i - 63) :=
        Nat.mul_le_mul_right _ (by omega)
      have e2 : q.m_hi + 2 ^ (i - 63) = (m + 1) * 2 ^ (i - 63) := by rw [hhi_eq]; ring
      omega
    have hpow_i : (2 : Nat) ^ (i - 64) * 2 ^ 64 = 2 ^ i := by
      rw [← pow_add]
      congr 1
      omega
    simp only [uint128.lor, uint128.from_parts, uint128.low, uint128.high, mask64,
      uint128.toNat]
    simp only [Nat.or_zero]
    rw [hlor, Nat.mod_eq_of_lt hsum_lt, hlo0]
    omega

theorem uint128.toNat_mul (a b : uint128) (ha : a.wf) (hb : b.wf) :
    (a.mul b).toNat = a.toNat * b.toNat % 2 ^ 128 := by
  obtain ⟨ha1, ha2⟩ := ha
  obtain ⟨hb1, hb2⟩ := hb
  obtain ⟨aq, ar, har, hal⟩ : ∃ q r, r < 2 ^ 32 ∧ a.m_lo = 2 ^ 32 * q + r :=
    ⟨a.m_lo / 2 ^ 32, a.m_lo % 2 ^ 32, Nat.mod_lt _ (by norm_num), (Nat.div_add_mod _ _).symm⟩
  obtain ⟨bq, br, hbr, hbl⟩ : ∃ q r, r < 2 ^ 32 ∧ b.m_lo = 2 ^ 32 * q + r :=
    ⟨b.m_lo / 2 ^ 32, b.m_lo % 2 ^ 32, Nat.mod_lt _ (by norm_num), (Nat.div_add_mod _ _).symm⟩
  have haq : aq < 2 ^ 32 := by omega
  have hbq : bq < 2 ^ 32 := by omega
  have hshra : a.m_lo >>> 32 = aq := by
    rw [Nat.shiftRight_eq_div_pow, hal, Nat.mul_add_div (by norm_num), Nat.div_eq_of_lt har]
    omega
  have hshrb : b.m_lo >>> 32 = bq := by
    rw [Nat.shiftRight_eq_div_pow, hbl, Nat.mul_add_div (by norm_num), Nat.div_eq_of_lt hbr]
    omega
  have hmaskconst : (4294967295 : Nat) = 2 ^ 32 - 1 := by norm_num
  have hmaska : a.m_lo &&& 4294967295 = ar := by
    rw [hmaskconst, Nat.and_pow_two_sub_one_eq_mod, hal, Nat.mul_add_mod, Nat.mod_eq_of_lt har]
  have hmaskb : b.m_lo &&& 4294967295 = br := by
    rw [hmaskconst, Nat.and_pow_two_sub_one_eq_mod, hbl, Nat.mul_add_mod, Nat.mod_eq_of_lt hbr]
  have hp3264 : (2 : Nat) ^ 32 * 2 ^ 32 = 2 ^ 64 := by norm_num
  have harbr : ar * br < 2 ^ 64 := by
    have e1 : ar * br < 2 ^ 32 * 2 ^ 32 :=
      mul_lt_mul'' har hbr (Nat.zero_le _) (Nat.zero_le _)
    omega
  have haqbr : aq * br < 2 ^ 64 := by
    have e1 : aq * br < 2 ^ 32 * 2 ^ 32 :=
      mul_lt_mul'' haq hbr (Nat.zero_le _) (Nat.zero_le _)
    omega
  have harbq : ar * bq < 2 ^ 64 := by
    have e1 : ar * bq < 2 ^ 32 * 2 ^ 32 :=
      mul_lt_mul'' har hbq (Nat.zero_le _) (Nat.zero_le _)
    omega
  have ht1 : ((uint128.ofNat64 (aq * br)).shl 32).toNat = aq * br * 2 ^ 32 := by
    have e1 : (uint128.ofNat64 (aq * br)).toNat = aq * br := uint128.toNat_ofNat64 _ haqbr
    have e2 : (uint128.ofNat64 (aq * br)).toNat * 2 ^ 32 < 2 ^ 128 := by rw [e1]; omega
    rw [uint128.toNat_shl_exact _ _ (uint128.ofNat64_wf _) e2, e1]
  have ht2 : ((uint128.ofNat64 (ar * bq)).shl 32).toNat = ar * bq * 2 ^ 32 := by
    have e1 : (uint128.ofNat64 (ar * bq)).toNat = ar * bq := uint128.toNat_ofNat64 _ harbq
    have e2 : (uint128.ofNat64 (ar * bq)).toNat * 2 ^ 32 < 2 ^ 128 := by rw [e1]; omega
    rw [uint128.toNat_shl_exact _ _ (uint128.ofNat64_wf _) e2, e1]
  simp only [uint128.mul, detail.multiply_portable, uint128.low, uint128.high]
  rw [hshra, hshrb, hmaska, hmaskb]
  rw [uint128.toNat_add _ _ (uint128.add_wf _ _) (uint128.shl_wf _ _ (uint128.ofNat64_wf _)),
    uint128.toNat_add _ _ (uint128.from_parts_wf _ _) (uint128.shl_wf _ _ (uint128.ofNat64_wf _)),
    ht1, ht2, uint128.toNat_from_parts]
  simp only [uint128.toNat]
  rw [hal, hbl]
  rw [Nat.mod_add_mod]
  obtain ⟨Xq, Xr, hXr, hXd⟩ : ∃ q r, r < 2 ^ 64 ∧
      a.m_hi * (2 ^ 32 * bq + br) + (2 ^ 32 * aq + ar) * b.m_hi + aq * bq = 2 ^ 64 * q + r := by
    refine ⟨_ / 2 ^ 64, _ % 2 ^ 64, Nat.mod_lt _ (by norm_num), (Nat.div_add_mod _ _).symm⟩
  have hXmod : (a.m_hi * (2 ^ 32 * bq + br) + (2 ^ 32 * aq + ar) * b.m_hi + aq * bq) % 2 ^ 64
      = Xr := by
    rw [hXd, Nat.mul_add_mod, Nat.mod_eq_of_lt hXr]
  rw [hXmod, Nat.mod_eq_of_lt harbr]
  have key : (a.m_hi * 2 ^ 64 + (2 ^ 32 * aq + ar)) * (b.m_hi * 2 ^ 64 + (2 ^ 32 * bq + br))
      = Xr * 2 ^ 64 + ar * br + aq * br * 2 ^ 32 + ar * bq * 2 ^ 32
        + 2 ^ 128 * (a.m_hi * b.m_hi + Xq) := by
    calc (a.m_hi * 2 ^ 64 + (2 ^ 32 * aq + ar)) * (b.m_hi * 2 ^ 64 + (2 ^ 32 * bq + br))
        = (a.m_hi * (2 ^ 32 * bq + br) + (2 ^ 32 * aq + ar) * b.m_hi + aq * bq) * 2 ^ 64
          + ar * br + aq * br * 2 ^ 32 + ar * bq * 2 ^ 32
          + 2 ^ 128 * (a.m_hi * b.m_hi) := by ring
    _ = (2 ^ 64 * Xq + Xr) * 2 ^ 64 + ar * br + aq * br * 2 ^ 32 + ar * bq * 2 ^ 32
          + 2 ^ 128 * (a.m_hi * b.m_hi) := by rw [hXd]
    _ = Xr * 2 ^ 64 + ar * br + aq * br * 2 ^ 32 + ar * bq * 2 ^ 32
          + 2 ^ 128 * (a.m_hi * b.m_hi + Xq) := by ring
  rw [key, Nat.add_mul_mod_self_left]

theorem detail.find_shift_spec (lhs rhs : uint128) (hlhs : lhs.wf)
    (hr_pos : 0 < rhs.toNat) :
    ∀ fuel temp shift, temp.wf → temp.toNat = rhs.toNat * 2 ^ shift → 129 ≤ shift + fuel →
      rhs.toNat * 2 ^ detail.find_shift lhs temp shift fuel < 2 ^ 128 ∧
      lhs.toNat < rhs.toNat * 2 ^ (detail.find_shift lhs temp shift fuel + 1) := by
  intro fuel
  induction fuel with
  | zero =>
    intro temp shift htw hte hfu
    exfalso
    have h1 : (2 : Nat) ^ 129 ≤ 2 ^ shift := Nat.pow_le_pow_right (by norm_num) (by omega)
    have h2 : 1 * 2 ^ 129 ≤ rhs.toNat * 2 ^ shift := Nat.mul_le_mul (by omega) h1
    have h3 := uint128.toNat_lt temp htw
    omega
  | succ fuel ih =>
    intro temp shift htw hte hfu
    simp only [detail.find_shift]
    split
    · next hcond =>
      rw [Bool.and_eq_true] at hcond
      obtain ⟨hc1, hc2⟩ := hcond
      rw [decide_eq_true_iff] at hc2
      have hhi : temp.high < 2 ^ 63 := hc2
      have htlt : temp.toNat < 2 ^ 127 := by
        obtain ⟨hw1, hw2⟩ := htw
        simp only [uint128.high] at hhi
        simp only [uint128.toNat]
        omega
      have hdouble : temp.toNat * 2 ^ 1 < 2 ^ 128 := by omega
      have hshl : (temp.shl 1).toNat = temp.toNat * 2 ^ 1 :=
        uint128.toNat_shl_exact temp 1 htw hdouble
      have hte' : (temp.shl 1).toNat = rhs.toNat * 2 ^ (shift + 1) := by
        rw [hshl, hte, mul_assoc, ← pow_add]
      exact ih (temp.shl 1) (shift + 1) (uint128.shl_wf temp 1 htw) hte' (by omega)
    · next hcond =>
      have hpows : rhs.toNat * 2 ^ (shift + 1) = rhs.toNat * 2 ^ shift * 2 := by
        rw [pow_succ]
        ring
      have hfit : rhs.toNat * 2 ^ shift < 2 ^ 128 := by
        rw [← hte]
        exact uint128.toNat_lt temp htw
      simp only [Bool.and_eq_true, decide_eq_true_iff, not_and_or] at hcond
      rcases hcond with hc | hc
    -- the shifted divisor exceeds the dividend
      · have hgt : lhs.toNat < temp.toNat := by
          have h3 := uint128.le_iff temp lhs htw hlhs
          have h4 : ¬ temp.toNat ≤ lhs.toNat := fun hx => hc (h3.mpr hx)
          omega
        constructor
        · exact hfit
        · rw [hte] at hgt
          omega
    -- the shifted divisor reached bit 127
      · have hhi : 2 ^ 63 ≤ temp.m_hi := by
          simp only [uint128.high] at hc
          omega
        have hbig : 2 ^ 127 ≤ temp.toNat := by
          simp only [uint128.toNat]
          omega
        have hlt := uint128.toNat_lt lhs hlhs
        constructor
        · exact hfit
        · rw [hte] at hbig
          omega

theorem detail.div_step_spec (rhs rem quot : uint128) (i : Nat) (hrem : rem.wf)
    (hquot : quot.wf) (hrhs : rhs.wf) (hr_pos : 0 < rhs.toNat)
    (hpow : rhs.toNat * 2 ^ i < 2 ^ 128) (m : Nat) (hm : quot.toNat = 2 ^ (i + 1) * m)
    (L : Nat) (hL : quot.toNat * rhs.toNat + rem.toNat = L)
    (hrem_lt : rem.toNat < rhs.toNat * 2 ^ (i + 1)) :
    (detail.div_step rhs rem quot i).1.wf ∧ (detail.div_step rhs rem quot i).2.wf ∧
      (detail.div_step rhs rem quot i).2.toNat * rhs.toNat
        + (detail.div_step rhs rem quot i).1.toNat = L ∧
      (detail.div_step rhs rem quot i).1.toNat < rhs.toNat * 2 ^ i ∧
      ∃ m2, (detail.div_step rhs rem quot i).2.toNat = 2 ^ i * m2 := by
  have hi : i < 128 := by
    by_contra hge
    push_neg at hge
    have e1 : (2 : Nat) ^ 128 ≤ 2 ^ i := Nat.pow_le_pow_right (by norm_num) hge
    have e2 : 1 * 2 ^ 128 ≤ rhs.toNat * 2 ^ i := Nat.mul_le_mul (by omega) e1
    omega
  have hshifted : (rhs.shl i).toNat = rhs.toNat * 2 ^ i :=
    uint128.toNat_shl_exact rhs i hrhs hpow
  have hsplit : rhs.toNat * 2 ^ (i + 1) = rhs.toNat * 2 ^ i * 2 := by
    rw [pow_succ]
    ring
  simp only [detail.div_step]
  split
  · next hge =>
    have hge' : (rhs.shl i).toNat ≤ rem.toNat :=
      (uint128.ge_iff rem (rhs.shl i) hrem (uint128.shl_wf rhs i hrhs)).mp hge
    rw [hshifted] at hge'
    have hsub : (rem.sub (rhs.shl i)).toNat = rem.toNat - rhs.toNat * 2 ^ i := by
      rw [uint128.toNat_sub_exact rem (rhs.shl i) hrem (uint128.shl_wf rhs i hrhs)
        (by rw [hshifted]; exact hge')]
      rw [hshifted]
    have hlor : (quot.lor (uint128.one.shl i)).toNat = quot.toNat + 2 ^ i :=
      uint128.toNat_lor_pow2 quot i hquot hi m hm
    refine ⟨uint128.sub_wf _ _, uint128.lor_wf _ _, ?_, ?_, ?_⟩
    · rw [hlor, hsub]
      have e1 : (quot.toNat + 2 ^ i) * rhs.toNat
          = quot.toNat * rhs.toNat + rhs.toNat * 2 ^ i := by ring
      omega
    · rw [hsub]
      omega
    · refine ⟨2 * m + 1, ?_⟩
      rw [hlor, hm, pow_succ]
      ring
  · next hge =>
    have hlt : rem.toNat < rhs.toNat * 2 ^ i := by
      have h3 := uint128.ge_iff rem (rhs.shl i) hrem (uint128.shl_wf rhs i hrhs)
      have h4 : ¬ (rhs.shl i).toNat ≤ rem.toNat := by
        intro hx
        rw [Bool.not_eq_true] at hge
        rw [h3.mpr hx] at hge
        cases hge
      rw [hshifted] at h4
      omega
    refine ⟨hrem, hquot, hL, hlt, 2 * m, ?_⟩
    rw [hm, pow_succ]
    ring

theorem detail.div_loop_spec (rhs : uint128) (hrhs : rhs.wf) (hr_pos : 0 < rhs.toNat)
    (L : Nat) :
    ∀ i rem quot, rem.wf → quot.wf → rhs.toNat * 2 ^ i < 2 ^ 128 →
      (∃ m, quot.toNat = 2 ^ (i + 1) * m) →
      quot.toNat * rhs.toNat + rem.toNat = L →
      rem.toNat < rhs.toNat * 2 ^ (i + 1) →
      (detail.div_loop rhs rem quot i).2.toNat * rhs.toNat
        + (detail.div_loop rhs rem quot i).1.toNat = L ∧
      (detail.div_loop rhs rem quot i).1.toNat < rhs.toNat ∧
      (detail.div_loop rhs rem quot i).2.wf ∧ (detail.div_loop rhs rem quot i).1.wf := by
  intro i
  induction i with
  | zero =>
    intro rem quot hrem hquot hpow hmult hL hrem_lt
    obtain ⟨m, hm⟩ := hmult
    obtain ⟨w1, w2, hinv, hbound, _⟩ :=
      detail.div_step_spec rhs rem quot 0 hrem hquot hrhs hr_pos hpow m hm L hL hrem_lt
    simp only [detail.div_loop]
    refine ⟨hinv, ?_, w2, w1⟩
    simpa using hbound
  | succ j ih =>
    intro rem quot hrem hquot hpow hmult hL hrem_lt
    obtain ⟨m, hm⟩ := hmult
    obtain ⟨w1, w2, hinv, hbound, m2, hm2⟩ :=
      detail.div_step_spec rhs rem quot (j + 1) hrem hquot hrhs hr_pos hpow m hm L hL hrem_lt
    have hpow' : rhs.toNat * 2 ^ j < 2 ^ 128 := by
      have e1 : (2 : Nat) ^ j ≤ 2 ^ (j + 1) := Nat.pow_le_pow_right (by norm_num) (by omega)
      have e2 : rhs.toNat * 2 ^ j ≤ rhs.toNat * 2 ^ (j + 1) := Nat.mul_le_mul_left _ e1
      omega
    simp only [detail.div_loop]
    exact ih (detail.div_step rhs rem quot (j + 1)).1 (detail.div_step rhs rem quot (j + 1)).2
      w1 w2 hpow' ⟨m2, hm2⟩ hinv hbound

theorem detail.div_loop_bits_wf (rhs : uint128) :
    ∀ i rem quot, rem.wf → quot.wf →
      (detail.div_loop rhs rem quot i).1.wf ∧ (detail.div_loop rhs rem quot i).2.wf := by
  intro i
  induction i with
  | zero =>
    intro rem quot h1 h2
    simp only [detail.div_loop, detail.div_step]
    split
    · exact ⟨uint128.sub_wf _ _, uint128.lor_wf _ _⟩
    · exact ⟨h1, h2⟩
  | succ j ih =>
    intro rem quot h1 h2
    simp only [detail.div_loop]
    refine ih _ _ ?_ ?_
    · simp only [detail.div_step]
      split
      · exact uint128.sub_wf _ _
      · exact h1
    · simp only [detail.div_step]
      split
      · exact uint128.lor_wf _ _
      · exact h2

theorem uint128.div_wf (lhs rhs : uint128) (ha : lhs.wf) : (lhs.div rhs).wf := by
  simp only [uint128.div, detail.divide_portable]
  split
  · exact uint128.zero_wf
  · exact (detail.div_loop_bits_wf rhs _ lhs uint128.zero ha uint128.zero_wf).2

theorem uint128.mod_wf (lhs rhs : uint128) : (lhs.mod rhs).wf := by
  simp only [uint128.mod]
  split
  · exact uint128.zero_wf
  · exact uint128.sub_wf _ _

theorem uint128.toNat_eq_zero_iff (v : uint128) : v.toNat = 0 ↔ v = uint128.zero := by
  constructor
  · intro h
    have e1 : v.m_lo = 0 := by simp only [uint128.toNat] at h; omega
    have e2 : v.m_hi = 0 := by simp only [uint128.toNat] at h; omega
    cases v
    simp only [uint128.zero, uint128.mk.injEq]
    exact ⟨e1, e2⟩
  · intro h
    subst h
    simp [uint128.zero, uint128.toNat]

theorem uint128.div_correct (lhs rhs : uint128) (ha : lhs.wf) (hb : rhs.wf) :
    (lhs.div rhs).toNat = lhs.toNat / rhs.toNat := by
  simp only [uint128.div, detail.divide_portable]
  split
  · next hcond =>
    rw [Bool.or_eq_true] at hcond
    rcases hcond with hc | hc
    · have hz : rhs = uint128.zero := (uint128.beq_iff rhs uint128.zero).mp hc
      rw [hz]
      have e0 : uint128.zero.toNat = 0 := by simp [uint128.zero, uint128.toNat]
      rw [e0, Nat.div_zero]
    · have hlt := (uint128.lt_iff lhs rhs ha hb).mp hc
      have e0 : uint128.zero.toNat = 0 := by simp [uint128.zero, uint128.toNat]
      rw [e0, Nat.div_eq_of_lt hlt]
  · next hcond =>
    rw [Bool.or_eq_true, not_or] at hcond
    obtain ⟨hnz, hnlt⟩ := hcond
    have hr_pos : 0 < rhs.toNat := by
      rcases Nat.eq_zero_or_pos rhs.toNat with h0 | h0
      · exact absurd ((uint128.beq_iff rhs uint128.zero).mpr
          ((uint128.toNat_eq_zero_iff rhs).mp h0)) hnz
      · exact h0
    have hte0 : rhs.toNat = rhs.toNat * 2 ^ 0 := by norm_num
    obtain ⟨hS1, hS2⟩ := detail.find_shift_spec lhs rhs ha hr_pos 129 rhs 0 hb hte0 (by omega)
    have hq0 : uint128.zero.toNat = 0 := by simp [uint128.zero, uint128.toNat]
    obtain ⟨hinv, hbound, hwq, hwr⟩ :=
      detail.div_loop_spec rhs hb hr_pos lhs.toNat (detail.find_shift lhs rhs 0 129) lhs
        uint128.zero ha uint128.zero_wf hS1 ⟨0, by rw [hq0]; ring⟩ (by rw [hq0]; ring) hS2
    have := (Nat.div_mod_unique hr_pos).mpr
      (⟨by rw [Nat.mul_comm] at hinv; omega, hbound⟩ :
        (detail.div_loop rhs lhs uint128.zero (detail.find_shift lhs rhs 0 129)).1.toNat
          + rhs.toNat *
            (detail.div_loop rhs lhs uint128.zero (detail.find_shift lhs rhs 0 129)).2.toNat
          = lhs.toNat ∧
        (detail.div_loop rhs lhs uint128.zero (detail.find_shift lhs rhs 0 129)).1.toNat
          < rhs.toNat)
    exact this.1.symm

theorem uint128.mod_correct (lhs rhs : uint128) (ha : lhs.wf) (hb : rhs.wf)
    (h0 : rhs.toNat ≠ 0) : (lhs.mod rhs).toNat = lhs.toNat % rhs.toNat := by
  simp only [uint128.mod]
  split
  · next hc =>
    exact absurd ((uint128.toNat_eq_zero_iff rhs).mpr
      ((uint128.beq_iff rhs uint128.zero).mp hc)) h0
  · next hc =>
    have hq := uint128.div_correct lhs rhs ha hb
    have hql : (lhs.div rhs).toNat * rhs.toNat ≤ lhs.toNat := by
      rw [hq]
      exact Nat.div_mul_le_self _ _
    have hmul : ((lhs.div rhs).mul rhs).toNat = (lhs.div rhs).toNat * rhs.toNat := by
      rw [uint128.toNat_mul _ _ (uint128.div_wf lhs rhs ha) hb]
      have := uint128.toNat_lt lhs ha
      exact Nat.mod_eq_of_lt (by omega)
    rw [uint128.toNat_sub_exact lhs _ ha (uint128.mul_wf _ _) (by rw [hmul]; exact hql)]
    rw [hmul, hq]
    have hdm := Nat.div_add_mod lhs.toNat rhs.toNat
    set Q := lhs.toNat / rhs.toNat with hQ
    set M := lhs.toNat % rhs.toNat with hM
    have e1 : Q * rhs.toNat = rhs.toNat * Q := by ring
    omega

theorem toUInt64_lt (x : Int) : toUInt64 x < 2 ^ 64 := by
  simp only [toUInt64]
  omega

theorem toUInt64_toInt64 (x : Nat) (h : x < 2 ^ 64) : toUInt64 (toInt64 x) = x := by
  simp only [toUInt64, toInt64]
  split <;> omega

theorem int128.pat_lt (v : int128) (hv : v.wf) : v.pat < 2 ^ 128 := by
  obtain ⟨h1, h2, h3⟩ := hv
  have h4 := toUInt64_lt v.m_hi
  simp only [int128.pat]
  omega

theorem int128.pat_inj (a b : int128) (ha : a.wf) (hb : b.wf) (h : a.pat = b.pat) :
    a = b := by
  obtain ⟨ha1, ha2, ha3⟩ := ha
  obtain ⟨hb1, hb2, hb3⟩ := hb
  have h4 := toUInt64_lt a.m_hi
  have h5 := toUInt64_lt b.m_hi
  have e1 : a.m_lo = b.m_lo := by simp only [int128.pat] at h; omega
  have e2 : toUInt64 a.m_hi = toUInt64 b.m_hi := by simp only [int128.pat] at h; omega
  have e3 : a.m_hi = b.m_hi := by
    simp only [toUInt64] at e2
    omega
  cases a
  cases b
  simp only [int128.mk.injEq]
  exact ⟨e1, e3⟩

theorem int128.ofUint_wf (w : uint128) (hw : w.wf) : (int128.ofUint w).wf := by
  obtain ⟨h1, h2⟩ := hw
  refine ⟨h1, ?_, ?_⟩ <;>
    simp only [int128.ofUint, toInt64, uint128.high, uint128.low] <;>
    split <;> omega

theorem uint128.toNat_ofInt128 (v : int128) : (uint128.ofInt128 v).toNat = v.pat := rfl

theorem uint128.ofInt128_wf (v : int128) (hv : v.wf) : (uint128.ofInt128 v).wf := by
  obtain ⟨h1, h2, h3⟩ := hv
  exact ⟨h1, toUInt64_lt v.m_hi⟩

theorem int128.pat_ofUint (w : uint128) (hw : w.wf) : (int128.ofUint w).pat = w.toNat := by
  obtain ⟨h1, h2⟩ := hw
  simp only [int128.ofUint, int128.pat, uint128.low, uint128.high, uint128.toNat]
  rw [toUInt64_toInt64 w.m_hi h2]

theorem int128.toZ_ofUint (w : uint128) (hw : w.wf) :
    (int128.ofUint w).toZ = wrap128s (w.toNat : Int) := by
  obtain ⟨h1, h2⟩ := hw
  simp only [int128.ofUint, int128.toZ, toInt64, uint128.low, uint128.high, wrap128s,
    uint128.toNat]
  split <;> push_cast <;> omega

theorem int128.toZ_eq_wrap_pat (v : int128) (hv : v.wf) : v.toZ = wrap128s (v.pat : Int) := by
  obtain ⟨h1, h2, h3⟩ := hv
  simp only [int128.toZ, int128.pat, wrap128s, toUInt64]
  push_cast
  omega

theorem int128.hi_neg_iff (v : int128) (hv : v.wf) : v.m_hi < 0 ↔ v.toZ < 0 := by
  obtain ⟨h1, h2, h3⟩ := hv
  simp only [int128.toZ]
  omega

theorem int128.from_parts_wf_int (h : Int) (l : Nat) : (int128.from_parts h l).wf := by
  refine ⟨?_, ?_, ?_⟩ <;> simp only [int128.from_parts, mask64, wrap64s] <;> omega

theorem int128.zero_wf_int : int128.zero.wf := by
  refine ⟨?_, ?_, ?_⟩ <;> simp [int128.zero]

theorem int128.ofInt_wf (v : Int) : (int128.ofInt v).wf := by
  refine ⟨?_, ?_, ?_⟩
  · simp only [int128.ofInt, toUInt64]
    omega
  · simp only [int128.ofInt]
    split <;> omega
  · simp only [int128.ofInt]
    split <;> omega

theorem int128.add_wf_int (a b : int128) (ha : a.wf) (hb : b.wf) : (a.add b).wf :=
  int128.ofUint_wf _ (uint128.add_wf _ _)

theorem int128.sub_wf_int (a b : int128) (ha : a.wf) (hb : b.wf) : (a.sub b).wf :=
  int128.ofUint_wf _ (uint128.sub_wf _ _)

theorem int128.mul_wf_int (a b : int128) (ha : a.wf) (hb : b.wf) : (a.mul b).wf :=
  int128.ofUint_wf _ (uint128.mul_wf _ _)

theorem int128.neg_wf_int (v : int128) : v.neg.wf := int128.from_parts_wf_int _ _

theorem int128.div_wf_int (a b : int128) (ha : a.wf) (hb : b.wf) : (a.div b).wf := by
  simp only [int128.div]
  split
  · exact int128.neg_wf_int _
  · refine int128.ofUint_wf _ ?_
    split <;> split <;>
      exact uint128.div_wf _ _ (by first
        | exact uint128.neg_wf _
        | exact uint128.ofInt128_wf _ ‹_›)

theorem int128.mod_wf_int (a b : int128) (ha : a.wf) (hb : b.wf) : (a.mod b).wf := by
  simp only [int128.mod]
  split
  · exact int128.neg_wf_int _
  · exact int128.ofUint_wf _ (uint128.mod_wf _ _)

theorem int128.pat_add (a b : int128) (ha : a.wf) (hb : b.wf) :
    (a.add b).pat = (a.pat + b.pat) % 2 ^ 128 := by
  rw [int128.add, int128.pat_ofUint _ (uint128.add_wf _ _),
    uint128.toNat_add _ _ (uint128.ofInt128_wf a ha) (uint128.ofInt128_wf b hb),
    uint128.toNat_ofInt128, uint128.toNat_ofInt128]

theorem int128.pat_mul (a b : int128) (ha : a.wf) (hb : b.wf) :
    (a.mul b).pat = a.pat * b.pat % 2 ^ 128 := by
  rw [int128.mul, int128.pat_ofUint _ (uint128.mul_wf _ _),
    uint128.toNat_mul _ _ (uint128.ofInt128_wf a ha) (uint128.ofInt128_wf b hb),
    uint128.toNat_ofInt128, uint128.toNat_ofInt128]

theorem int128.pat_neg (v : int128) (hv : v.wf) :
    v.neg.pat = (2 ^ 128 - v.pat) % 2 ^ 128 := by
  obtain ⟨h1, h2, h3⟩ := hv
  simp only [int128.neg, int128.from_parts, int128.pat, int128.high, int128.low, not64,
    mask64, wrap64s, toUInt64]
  split
  · next hc =>
    simp only [beq_iff_eq] at hc
    rw [hc]
    omega
  · next hc =>
    simp only [beq_iff_eq] at hc
    omega

theorem uint128.neg_toNat_ofInt128 (v : int128) (hv : v.wf) :
    ((uint128.ofInt128 v).neg).toNat = (2 ^ 128 - v.pat) % 2 ^ 128 := by
  rw [uint128.toNat_neg _ (uint128.ofInt128_wf v hv), uint128.toNat_ofInt128]

theorem detail.dec_loop_spec :
    ∀ fuel (v : uint128) (acc : List Char), v.wf → v.toNat < 10 ^ fuel →
      detail.dec_loop fuel v acc
        = ((Nat.digits 10 v.toNat).map digitChar).reverse ++ acc := by
  intro fuel
  induction fuel with
  | zero =>
    intro v acc hw hlt
    have h0 : v.toNat = 0 := by omega
    simp only [detail.dec_loop]
    rw [h0]
    simp
  | succ fuel ih =>
    intro v acc hw hlt
    simp only [detail.dec_loop]
    split
    · next hc =>
      have h0 : v.toNat = 0 := by
        rw [(uint128.beq_iff v uint128.zero).mp hc]
        simp [uint128.zero, uint128.toNat]
      rw [h0]
      simp
    · next hc =>
      have h0 : v.toNat ≠ 0 := by
        intro hx
        exact hc ((uint128.beq_iff v uint128.zero).mpr ((uint128.toNat_eq_zero_iff v).mp hx))
      have h10 : (uint128.ofNat64 10).toNat = 10 := uint128.toNat_ofNat64 10 (by norm_num)
      have hq : (v.div (uint128.ofNat64 10)).toNat = v.toNat / 10 := by
        rw [uint128.div_correct v _ hw (uint128.ofNat64_wf 10), h10]
      have hqwf := uint128.div_wf v (uint128.ofNat64 10) hw
      have hmul : ((v.div (uint128.ofNat64 10)).mul (uint128.ofNat64 10)).toNat
          = v.toNat / 10 * 10 := by
        rw [uint128.toNat_mul _ _ hqwf (uint128.ofNat64_wf 10), hq, h10]
        refine Nat.mod_eq_of_lt ?_
        have e1 := uint128.toNat_lt v hw
        have e2 := Nat.div_mul_le_self v.toNat 10
        omega
      have hle : ((v.div (uint128.ofNat64 10)).mul (uint128.ofNat64 10)).toNat ≤ v.toNat := by
        rw [hmul]
        exact Nat.div_mul_le_self _ _
      have hrem : (v.sub ((v.div (uint128.ofNat64 10)).mul (uint128.ofNat64 10))).toNat
          = v.toNat % 10 := by
        rw [uint128.toNat_sub_exact v _ hw (uint128.mul_wf _ _) hle, hmul]
        omega
      have hlow : (v.sub ((v.div (uint128.ofNat64 10)).mul (uint128.ofNat64 10))).low
          = v.toNat % 10 := by
        simp only [uint128.low]
        simp only [uint128.toNat] at hrem ⊢
        omega
      have hqlt : (v.div (uint128.ofNat64 10)).toNat < 10 ^ fuel := by
        rw [hq]
        have e1 : (10 : Nat) ^ (fuel + 1) = 10 ^ fuel * 10 := by rw [pow_succ]
        omega
      rw [ih _ _ hqwf hqlt, hq, hlow]
      rw [Nat.digits_def' (by norm_num : (1 : ℕ) < 10) (Nat.pos_of_ne_zero h0)]
      simp

theorem uint128.to_string_spec (v : uint128) (hv : v.wf) :
    v.to_string = decimalSpec v.toNat := by
  simp only [uint128.to_string, decimalSpec]
  by_cases h0 : v.toNat = 0
  · rw [if_pos ((uint128.beq_iff v uint128.zero).mpr ((uint128.toNat_eq_zero_iff v).mp h0)),
      if_pos h0]
  · have hbne : ¬ v.beq uint128.zero = true := by
      intro hx
      exact h0 ((uint128.toNat_eq_zero_iff v).mpr ((uint128.beq_iff v uint128.zero).mp hx))
    rw [if_neg hbne, if_neg h0]
    have hlt40 : v.toNat < 10 ^ 40 := by
      have e1 := uint128.toNat_lt v hv
      have e2 : (2 : Nat) ^ 128 < 10 ^ 40 := by norm_num
      omega
    rw [detail.dec_loop_spec 40 v [] hv hlt40, List.append_nil]

theorem int128.to_string_spec_int (v : int128) (hv : v.wf) :
    v.to_string = if v.toZ < 0 then "-" ++ decimalSpec (-v.toZ).toNat
      else decimalSpec v.toZ.toNat := by
  obtain ⟨h1, h2, h3⟩ := hv
  simp only [int128.to_string, int128.high]
  by_cases hneg : v.m_hi < 0
  · have htz : v.toZ < 0 := (int128.hi_neg_iff v ⟨h1, h2, h3⟩).mp hneg
    rw [if_pos hneg, if_pos htz]
    rw [uint128.to_string_spec _ (uint128.ofInt128_wf _ (int128.neg_wf_int v))]
    congr 1
    rw [uint128.toNat_ofInt128, int128.pat_neg v ⟨h1, h2, h3⟩]
    congr 1
    have hwrap := int128.toZ_eq_wrap_pat v ⟨h1, h2, h3⟩
    have hplt := int128.pat_lt v ⟨h1, h2, h3⟩
    have hpge : 2 ^ 127 ≤ v.pat := by
      simp only [int128.pat, toUInt64]
      omega
    simp only [wrap128s] at hwrap
    omega
  · have htz : ¬ v.toZ < 0 := fun hx => hneg ((int128.hi_neg_iff v ⟨h1, h2, h3⟩).mpr hx)
    rw [if_neg hneg, if_neg htz]
    rw [uint128.to_string_spec _ (uint128.ofInt128_wf _ ⟨h1, h2, h3⟩)]
    congr 1
    rw [uint128.toNat_ofInt128]
    have hwrap := int128.toZ_eq_wrap_pat v ⟨h1, h2, h3⟩
    have hplt := int128.pat_lt v ⟨h1, h2, h3⟩
    have hplt127 : v.pat < 2 ^ 127 := by
      simp only [int128.pat, toUInt64]
      omega
    simp only [wrap128s] at hwrap
    omega

theorem fdiv_unique (a b q r : Int) (hb : 0 < b) (hr0 : 0 ≤ r) (hrb : r < b)
    (heq : a = b * q + r) : Int.fdiv a b = q := by
  rw [Int.fdiv_eq_ediv _ (le_of_lt hb)]
  exact ((Int.ediv_emod_unique hb).mpr ⟨by omega, hr0, hrb⟩).1

theorem int128.shr_fdiv (x : int128) (n : Nat) (hx : x.wf) (hn : n < 128) :
    (x.shr n).toZ = Int.fdiv x.toZ (2 ^ n) := by
  obtain ⟨h1, h2, h3⟩ := hx
  simp only [int128.shr, int128.high, int128.low]
  split
  · next hc =>
    simp only [beq_iff_eq] at hc
    subst hc
    norm_num
  next hc =>
  simp only [beq_iff_eq] at hc
  split
  · next hc128 => omega
  next hc128 =>
  split
  · next hc64 =>
    -- 64 <= n < 128: the whole low limb is shifted out
    obtain ⟨k, rfl⟩ : ∃ k, n = 64 + k := ⟨n - 64, by omega⟩
    have hk63 : k < 64 := by omega
    have hkpos : (0 : Int) < 2 ^ k := by positivity
    have hkone : (1 : Int) ≤ 2 ^ k := hkpos
    obtain ⟨q, r, hq_def, hr_def, hqr, hr0, hrlt⟩ :
        ∃ q r : Int, q = x.m_hi / 2 ^ k ∧ r = x.m_hi % 2 ^ k ∧ 2 ^ k * q + r = x.m_hi
          ∧ 0 ≤ r ∧ r < 2 ^ k :=
      ⟨_, _, rfl, rfl, Int.ediv_add_emod _ _, Int.emod_nonneg _ (by positivity),
        Int.emod_lt_of_pos _ hkpos⟩
    have hCge : (2 : Int) ^ 63 ≤ 2 ^ k * 2 ^ 63 := by
      have e1 : (1 : Int) * 2 ^ 63 ≤ 2 ^ k * 2 ^ 63 :=
        mul_le_mul_of_nonneg_right hkone (by positivity)
      omega
    have hq_lb : -(2 : Int) ^ 63 ≤ q := by
      by_contra hlt
      push_neg at hlt
      have e1 : 2 ^ k * q ≤ 2 ^ k * (-(2 : Int) ^ 63 - 1) :=
        mul_le_mul_of_nonneg_left (by omega) (by positivity)
      have e2 : 2 ^ k * (-(2 : Int) ^ 63 - 1) = -(2 ^ k * 2 ^ 63) - 2 ^ k := by ring
      omega
    have hq_ub : q < (2 : Int) ^ 63 := by
      by_contra hge
      push_neg at hge
      have e1 : 2 ^ k * (2 : Int) ^ 63 ≤ 2 ^ k * q :=
        mul_le_mul_of_nonneg_left hge (by positivity)
      omega
    have hsar : sar64 x.m_hi k = q := by
      rw [sar64, Int.fdiv_eq_ediv _ (le_of_lt hkpos), hq_def]
    have hksub : 64 + k - 64 = k := by omega
    rw [hksub, hsar]
    have hsplitpow : (2 : Int) ^ (64 + k) = 2 ^ k * 2 ^ 64 := by
      rw [pow_add]
      ring
    have hrho0 : (0 : Int) ≤ r * 2 ^ 64 + x.m_lo := by positivity
    have hrholt : r * 2 ^ 64 + (x.m_lo : Int) < 2 ^ (64 + k) := by
      have e1 : r * 2 ^ 64 ≤ (2 ^ k - 1) * 2 ^ 64 :=
        mul_le_mul_of_nonneg_right (by omega) (by positivity)
      have e2 : ((2 : Int) ^ k - 1) * 2 ^ 64 = 2 ^ k * 2 ^ 64 - 2 ^ 64 := by ring
      omega
    have heq : x.toZ = 2 ^ (64 + k) * q + (r * 2 ^ 64 + x.m_lo) := by
      simp only [int128.toZ]
      rw [hsplitpow]
      have e1 : 2 ^ k * 2 ^ 64 * q + (r * 2 ^ 64 + (x.m_lo : Int))
          = (2 ^ k * q + r) * 2 ^ 64 + x.m_lo := by ring
      rw [e1, hqr]
    rw [fdiv_unique x.toZ (2 ^ (64 + k)) q (r * 2 ^ 64 + x.m_lo) (by positivity) hrho0
      hrholt heq]
    by_cases hneg : x.m_hi < 0
    · have hqneg : q < 0 := by
        rw [hq_def]
        exact Int.ediv_neg' hneg hkpos
      rw [if_pos hneg]
      simp only [int128.from_parts, int128.toZ, wrap64s, mask64, toUInt64]
      push_cast
      omega
    · have hqpos : 0 ≤ q := by
        rw [hq_def]
        exact Int.ediv_nonneg (by omega) (by positivity)
      rw [if_neg hneg]
      simp only [int128.from_parts, int128.toZ, wrap64s, mask64, toUInt64]
      push_cast
      omega
  · next hc64 =>
    -- 0 < n < 64: cross-limb shift
    have hn64 : n < 64 := by omega
    obtain ⟨j, hj⟩ : ∃ j, 64 = n + j := ⟨64 - n, by omega⟩
    have hj64 : 64 - n = j := by omega
    have hnppos : (0 : Int) < 2 ^ n := by positivity
    have hnone : (1 : Int) ≤ 2 ^ n := hnppos
    obtain ⟨q, r, hq_def, hr_def, hqr, hr0, hrlt⟩ :
        ∃ q r : Int, q = x.m_hi / 2 ^ n ∧ r = x.m_hi % 2 ^ n ∧ 2 ^ n * q + r = x.m_hi
          ∧ 0 ≤ r ∧ r < 2 ^ n :=
      ⟨_, _, rfl, rfl, Int.ediv_add_emod _ _, Int.emod_nonneg _ (by positivity),
        Int.emod_lt_of_pos _ hnppos⟩
    have hCge : (2 : Int) ^ 63 ≤ 2 ^ n * 2 ^ 63 := by
      have e1 : (1 : Int) * 2 ^ 63 ≤ 2 ^ n * 2 ^ 63 :=
        mul_le_mul_of_nonneg_right hnone (by positivity)
      omega
    have hq_lb : -(2 : Int) ^ 63 ≤ q := by
      by_contra hlt
      push_neg at hlt
      have e1 : 2 ^ n * q ≤ 2 ^ n * (-(2 : Int) ^ 63 - 1) :=
        mul_le_mul_of_nonneg_left (by omega) (by positivity)
      have e2 : 2 ^ n * (-(2 : Int) ^ 63 - 1) = -(2 ^ n * 2 ^ 63) - 2 ^ n := by ring
      omega
    have hq_ub : q < (2 : Int) ^ 63 := by
      by_contra hge
      push_neg at hge
      have e1 : 2 ^ n * (2 : Int) ^ 63 ≤ 2 ^ n * q :=
        mul_le_mul_of_nonneg_left hge (by positivity)
      omega
    have hsar : sar64 x.m_hi n = q := by
      rw [sar64, Int.fdiv_eq_ediv _ (le_of_lt hnppos), hq_def]
    rw [hsar, hj64]
    have hHrel : (toUInt64 x.m_hi : Int) = x.m_hi % 2 ^ 64 := by
      simp only [toUInt64]
      omega
    have hdvd : ((2 : Int) ^ n) ∣ 2 ^ 64 := pow_dvd_pow 2 (by omega)
    have hHmodrel : ((toUInt64 x.m_hi % 2 ^ n : Nat) : Int) = r := by
      push_cast
      rw [hHrel, Int.emod_emod_of_dvd _ hdvd, hr_def]
    obtain ⟨lq, lr, hlr, hlo⟩ : ∃ lq lr, lr < 2 ^ n ∧ x.m_lo = 2 ^ n * lq + lr :=
      ⟨x.m_lo / 2 ^ n, x.m_lo % 2 ^ n, Nat.mod_lt _ (Nat.two_pow_pos n),
        (Nat.div_add_mod _ _).symm⟩
    have hsplit64 : (2 : Nat) ^ 64 = 2 ^ n * 2 ^ j := by rw [hj, pow_add]
    have hlq_lt : lq < 2 ^ j := by
      by_contra hge
      push_neg at hge
      have e1 : 2 ^ n * 2 ^ j ≤ 2 ^ n * lq := Nat.mul_le_mul_left _ hge
      omega
    have hshiftlo : x.m_lo >>> n = lq := by
      rw [Nat.shiftRight_eq_div_pow, hlo, Nat.mul_add_div (Nat.two_pow_pos n),
        Nat.div_eq_of_lt hlr]
      omega
    have hmaskH : (toUInt64 x.m_hi <<< j) % 2 ^ 64 = (toUInt64 x.m_hi % 2 ^ n) * 2 ^ j := by
      rw [Nat.shiftLeft_eq, hsplit64, Nat.mul_mod_mul_right]
    have hlor : lq ||| (toUInt64 x.m_hi % 2 ^ n) * 2 ^ j
        = lq + (toUInt64 x.m_hi % 2 ^ n) * 2 ^ j := by
      rw [Nat.mul_comm _ (2 ^ j)]
      exact lor_disjoint_left j _ lq hlq_lt
    have hsum_lt : lq + (toUInt64 x.m_hi % 2 ^ n) * 2 ^ j < 2 ^ 64 := by
      have e1 : toUInt64 x.m_hi % 2 ^ n ≤ 2 ^ n - 1 := by
        have := Nat.mod_lt (toUInt64 x.m_hi) (Nat.two_pow_pos n)
        omega
      have e2 : (toUInt64 x.m_hi % 2 ^ n) * 2 ^ j ≤ (2 ^ n - 1) * 2 ^ j :=
        Nat.mul_le_mul_right _ e1
      have e3 : ((2 ^ n - 1) + 1) * 2 ^ j = 2 ^ n * 2 ^ j := by
        congr 1
        have := Nat.two_pow_pos n
        omega
      have e4 : ((2 ^ n - 1) + 1) * 2 ^ j = (2 ^ n - 1) * 2 ^ j + 2 ^ j := by ring
      omega
    have heq : x.toZ = 2 ^ n * ((q * 2 ^ 64 + (lq : Int)) + r * 2 ^ j) + lr := by
      simp only [int128.toZ]
      have hsplit64i : (2 : Int) ^ 64 = 2 ^ n * 2 ^ j := by
        rw [hj]
        push_cast [pow_add]
        ring
      have e1 : (x.m_lo : Int) = 2 ^ n * lq + lr := by
        rw [hlo]
        push_cast
        ring
      rw [e1]
      have e2 : 2 ^ n * (q * 2 ^ 64 + (lq : Int) + r * 2 ^ j) + lr
          = (2 ^ n * q + r) * 2 ^ 64 + (2 ^ n * (lq : Int) + lr)
            + r * (2 ^ n * 2 ^ j) - r * 2 ^ 64 := by ring
      rw [e2, hqr, ← hsplit64i]
      ring
    have hrho0 : (0 : Int) ≤ (lr : Int) := by positivity
    have hrholt : (lr : Int) < 2 ^ n := by exact_mod_cast hlr
    rw [fdiv_unique x.toZ (2 ^ n) ((q * 2 ^ 64 + (lq : Int)) + r * 2 ^ j) lr hnppos hrho0
      hrholt heq]
    simp only [int128.from_parts, int128.toZ, wrap64s, mask64]
    rw [hshiftlo, hmaskH, hlor]
    rw [Nat.mod_eq_of_lt hsum_lt]
    push_cast
    push_cast at hHmodrel
    rw [hHmodrel]
    omega

theorem zmod_cast_sub_pow (x : Nat) (h : x ≤ 2 ^ 128) :
    ((2 ^ 128 - x : Nat) : ZMod (2 ^ 128)) = -(x : ZMod (2 ^ 128)) := by
  rw [Nat.cast_sub h, ZMod.natCast_self, zero_sub]

theorem uint128.zmod_mod_identity (Au Bu : uint128) (hAu : Au.wf) (hBu : Bu.wf)
    (hB0 : ¬ Bu = uint128.zero) :
    ((Au.mod Bu).toNat : ZMod (2 ^ 128))
      = (Au.toNat : ZMod (2 ^ 128)) - ((Au.div Bu).toNat : ZMod (2 ^ 128)) * Bu.toNat := by
  have hbeq : Bu.beq uint128.zero = false := by
    rcases Bool.eq_false_or_eq_true (Bu.beq uint128.zero) with h | h
    · exact absurd ((uint128.beq_iff _ _).mp h) hB0
    · exact h
  simp only [uint128.mod, hbeq, Bool.false_eq_true, if_false]
  rw [uint128.toNat_sub Au _ hAu (uint128.mul_wf _ _),
    uint128.toNat_mul _ _ (uint128.div_wf _ _ hAu) hBu]
  have hle : (Au.div Bu).toNat * Bu.toNat % 2 ^ 128 ≤ Au.toNat + 2 ^ 128 := by
    have := Nat.mod_lt ((Au.div Bu).toNat * Bu.toNat) (y := 2 ^ 128) (by norm_num)
    omega
  have hcast128 : ((2 ^ 128 : Nat) : ZMod (2 ^ 128)) = 0 := ZMod.natCast_self _
  rw [ZMod.natCast_mod, Nat.cast_sub hle, Nat.cast_add, hcast128, ZMod.natCast_mod,
    Nat.cast_mul]
  ring

theorem int128.zmod_pat_add (a b : int128) (ha : a.wf) (hb : b.wf) :
    ((a.add b).pat : ZMod (2 ^ 128)) = (a.pat : ZMod (2 ^ 128)) + b.pat := by
  rw [int128.pat_add a b ha hb, ZMod.natCast_mod, Nat.cast_add]

theorem int128.zmod_pat_mul (a b : int128) (ha : a.wf) (hb : b.wf) :
    ((a.mul b).pat : ZMod (2 ^ 128)) = (a.pat : ZMod (2 ^ 128)) * b.pat := by
  rw [int128.pat_mul a b ha hb, ZMod.natCast_mod, Nat.cast_mul]

theorem int128.zmod_pat_neg (v : int128) (hv : v.wf) :
    ((v.neg).pat : ZMod (2 ^ 128)) = -(v.pat : ZMod (2 ^ 128)) := by
  rw [int128.pat_neg v hv, ZMod.natCast_mod,
    zmod_cast_sub_pow _ (le_of_lt (int128.pat_lt v hv))]

theorem uint128.zmod_toNat_neg (v : uint128) (hv : v.wf) :
    ((v.neg).toNat : ZMod (2 ^ 128)) = -(v.toNat : ZMod (2 ^ 128)) := by
  rw [uint128.toNat_neg v hv, ZMod.natCast_mod,
    zmod_cast_sub_pow _ (le_of_lt (uint128.toNat_lt v hv))]

theorem int128.pat_eq_of_zmod (x y : int128) (hx : x.wf) (hy : y.wf)
    (h : ((x.pat : ZMod (2 ^ 128)) = (y.pat : ZMod (2 ^ 128)))) : x = y := by
  apply int128.pat_inj x y hx hy
  have e1 := ZMod.val_cast_of_lt (int128.pat_lt x hx)
  have e2 := ZMod.val_cast_of_lt (int128.pat_lt y hy)
  rw [h] at e1
  rw [e2] at e1
  exact e1.symm

theorem int128.pat_eq_zero_iff (b : int128) (hb : b.wf) : b.pat = 0 ↔ b = int128.zero := by
  obtain ⟨h1, h2, h3⟩ := hb
  constructor
  · intro h
    have e1 : b.m_lo = 0 := by simp only [int128.pat] at h; omega
    have e2 : toUInt64 b.m_hi = 0 := by simp only [int128.pat] at h; omega
    have e3 : b.m_hi = 0 := by simp only [toUInt64] at e2; omega
    cases b
    simp only [int128.zero, int128.mk.injEq]
    exact ⟨e1, e3⟩
  · intro h
    subst h
    simp [int128.zero, int128.pat, toUInt64]

theorem int128.abs_dividend_wf (a : int128) (ha : a.wf) :
    (if a.high < 0 then (uint128.ofInt128 a).neg else uint128.ofInt128 a).wf := by
  split
  · exact uint128.neg_wf _
  · exact uint128.ofInt128_wf a ha

theorem int128.zmod_abs (a : int128) (ha : a.wf) :
    ((if a.high < 0 then (uint128.ofInt128 a).neg else uint128.ofInt128 a).toNat
      : ZMod (2 ^ 128))
    = if a.high < 0 then -(a.pat : ZMod (2 ^ 128)) else (a.pat : ZMod (2 ^ 128)) := by
  split
  · rw [uint128.zmod_toNat_neg _ (uint128.ofInt128_wf a ha), uint128.toNat_ofInt128]
  · rw [uint128.toNat_ofInt128]

theorem int128.abs_divisor_ne_zero (b : int128) (hb : b.wf) (hbz : ¬ b = int128.zero) :
    ¬ (if b.high < 0 then (uint128.ofInt128 b).neg else uint128.ofInt128 b)
      = uint128.zero := by
  obtain ⟨h1, h2, h3⟩ := hb
  have hpat0 : b.pat ≠ 0 := fun hx => hbz ((int128.pat_eq_zero_iff b ⟨h1, h2, h3⟩).mp hx)
  have hpatlt := int128.pat_lt b ⟨h1, h2, h3⟩
  split
  · next hneg =>
    intro hx
    have e1 : ((uint128.ofInt128 b).neg).toNat = 0 :=
      (uint128.toNat_eq_zero_iff _).mpr hx
    rw [uint128.toNat_neg _ (uint128.ofInt128_wf b ⟨h1, h2, h3⟩),
      uint128.toNat_ofInt128] at e1
    omega
  · next hneg =>
    intro hx
    have e1 : (uint128.ofInt128 b).toNat = 0 := (uint128.toNat_eq_zero_iff _).mpr hx
    rw [uint128.toNat_ofInt128] at e1
    exact hpat0 e1

theorem int128.div_mod_identity (a b : int128) (ha : a.wf) (hb : b.wf)
    (hbz : ¬ b = int128.zero) : ((a.div b).mul b).add (a.mod b) = a := by
  have hAwf := int128.abs_dividend_wf a ha
  have hBwf := int128.abs_dividend_wf b hb
  have hBnz := int128.abs_divisor_ne_zero b hb hbz
  have hzA := int128.zmod_abs a ha
  have hzB := int128.zmod_abs b hb
  simp only [int128.div, int128.mod]
  set Au := if a.high < 0 then (uint128.ofInt128 a).neg else uint128.ofInt128 a with hAu
  set Bu := if b.high < 0 then (uint128.ofInt128 b).neg else uint128.ofInt128 b with hBu
  have hRwf : (Au.div Bu).wf := uint128.div_wf Au Bu hAwf
  have hMwf : (Au.mod Bu).wf := uint128.mod_wf Au Bu
  have hM := uint128.zmod_mod_identity Au Bu hAwf hBwf hBnz
  have hq_wf : (int128.ofUint (Au.div Bu)).wf := int128.ofUint_wf _ hRwf
  have hm_wf : (int128.ofUint (Au.mod Bu)).wf := int128.ofUint_wf _ hMwf
  have hq_pat : ((int128.ofUint (Au.div Bu)).pat : ZMod (2 ^ 128))
      = ((Au.div Bu).toNat : ZMod (2 ^ 128)) := by
    rw [int128.pat_ofUint _ hRwf]
  have hm_pat : ((int128.ofUint (Au.mod Bu)).pat : ZMod (2 ^ 128))
      = ((Au.mod Bu).toNat : ZMod (2 ^ 128)) := by
    rw [int128.pat_ofUint _ hMwf]
  by_cases hA : a.high < 0 <;> by_cases hB : b.high < 0
  · -- both operands negative: quotient positive, remainder negative
    rw [if_pos hA] at hzA
    rw [if_pos hB] at hzB
    simp only [hA, hB]
    simp
    apply int128.pat_eq_of_zmod _ _
      (int128.add_wf_int _ _ (int128.mul_wf_int _ _ hq_wf hb) (int128.neg_wf_int _)) ha
    rw [int128.zmod_pat_add _ _ (int128.mul_wf_int _ _ hq_wf hb) (int128.neg_wf_int _),
      int128.zmod_pat_mul _ _ hq_wf hb, int128.zmod_pat_neg _ hm_wf,
      hq_pat, hm_pat, hM, hzA, hzB]
    ring
  · -- dividend negative, divisor positive: quotient and remainder negative
    rw [if_pos hA] at hzA
    rw [if_neg hB] at hzB
    simp only [hA, hB]
    simp
    apply int128.pat_eq_of_zmod _ _
      (int128.add_wf_int _ _ (int128.mul_wf_int _ _ (int128.neg_wf_int _) hb) (int128.neg_wf_int _)) ha
    rw [int128.zmod_pat_add _ _ (int128.mul_wf_int _ _ (int128.neg_wf_int _) hb) (int128.neg_wf_int _),
      int128.zmod_pat_mul _ _ (int128.neg_wf_int _) hb, int128.zmod_pat_neg _ hq_wf,
      int128.zmod_pat_neg _ hm_wf, hq_pat, hm_pat, hM, hzA, hzB]
    ring
  · -- dividend positive, divisor negative: quotient negative, remainder positive
    rw [if_neg hA] at hzA
    rw [if_pos hB] at hzB
    simp only [hA, hB]
    simp
    apply int128.pat_eq_of_zmod _ _
      (int128.add_wf_int _ _ (int128.mul_wf_int _ _ (int128.neg_wf_int _) hb) hm_wf) ha
    rw [int128.zmod_pat_add _ _ (int128.mul_wf_int _ _ (int128.neg_wf_int _) hb) hm_wf,
      int128.zmod_pat_mul _ _ (int128.neg_wf_int _) hb, int128.zmod_pat_neg _ hq_wf,
      hq_pat, hm_pat, hM, hzA, hzB]
    ring
  · -- both operands non-negative: plain unsigned identity
    rw [if_neg hA] at hzA
    rw [if_neg hB] at hzB
    simp only [hA, hB]
    simp
    apply int128.pat_eq_of_zmod _ _
      (int128.add_wf_int _ _ (int128.mul_wf_int _ _ hq_wf hb) hm_wf) ha
    rw [int128.zmod_pat_add _ _ (int128.mul_wf_int _ _ hq_wf hb) hm_wf,
      int128.zmod_pat_mul _ _ hq_wf hb, hq_pat, hm_pat, hM, hzA, hzB]
    ring

theorem uint128.div_zero (a : uint128) : a.div uint128.zero = uint128.zero := by
  simp only [uint128.div, detail.divide_portable]
  rw [if_pos]
  rw [Bool.or_eq_true]
  left
  decide

theorem uint128.mod_zero (a : uint128) : a.mod uint128.zero = uint128.zero := by
  simp only [uint128.mod]
  rw [if_pos]
  decide

theorem int128.div_zero_int (a : int128) : a.div int128.zero = int128.zero := by
  have hz : uint128.ofInt128 int128.zero = uint128.zero := by decide
  have hzh : ¬ (int128.zero.high < 0) := by decide
  simp only [int128.div, if_neg hzh, hz, uint128.div_zero]
  split
  · exact (by decide : (int128.ofUint uint128.zero).neg = int128.zero)
  · exact (by decide : int128.ofUint uint128.zero = int128.zero)

theorem int128.mod_zero_int (a : int128) : a.mod int128.zero = int128.zero := by
  have hz : uint128.ofInt128 int128.zero = uint128.zero := by decide
  have hzh : ¬ (int128.zero.high < 0) := by decide
  simp only [int128.mod, if_neg hzh, hz, uint128.mod_zero]
  split
  · exact (by decide : (int128.ofUint uint128.zero).neg = int128.zero)
  · exact (by decide : int128.ofUint uint128.zero = int128.zero)

theorem wrap128s_congr (x y : Int) (h : x % 2 ^ 128 = y % 2 ^ 128) :
    wrap128s x = wrap128s y := by
  simp only [wrap128s]
  omega

theorem int128.toZ_mul (a b : int128) (ha : a.wf) (hb : b.wf) :
    (a.mul b).toZ = wrap128s (a.toZ * b.toZ) := by
  rw [int128.mul, int128.toZ_ofUint _ (uint128.mul_wf _ _),
    uint128.toNat_mul _ _ (uint128.ofInt128_wf a ha) (uint128.ofInt128_wf b hb),
    uint128.toNat_ofInt128, uint128.toNat_ofInt128]
  apply wrap128s_congr
  have hpa : (a.pat : Int) % 2 ^ 128 = a.toZ % 2 ^ 128 := by
    have := int128.toZ_eq_wrap_pat a ha
    simp only [wrap128s] at this
    omega
  have hpb : (b.pat : Int) % 2 ^ 128 = b.toZ % 2 ^ 128 := by
    have := int128.toZ_eq_wrap_pat b hb
    simp only [wrap128s] at this
    omega
  push_cast
  rw [Int.emod_emod_of_dvd _ dvd_rfl]
  exact Int.ModEq.mul hpa hpb

theorem int128.pat_lnot (v : int128) (hv : v.wf) :
    (v.lnot).pat = 2 ^ 128 - 1 - v.pat := by
  obtain ⟨h1, h2, h3⟩ := hv
  simp only [int128.lnot, int128.from_parts, int128.pat, int128.high, int128.low, not64,
    mask64, wrap64s, toUInt64]
  omega

theorem int128.pat_ofInt_one : (int128.ofInt 1).pat = 1 := by decide

theorem int128.neg_eq_lnot_add_one (v : int128) (hv : v.wf) :
    v.neg = (v.lnot).add (int128.ofInt 1) := by
  have hlnot_wf : (v.lnot).wf := int128.from_parts_wf_int _ _
  apply int128.pat_inj _ _ (int128.neg_wf_int v)
    (int128.add_wf_int _ _ hlnot_wf (int128.ofInt_wf 1))
  rw [int128.pat_neg v hv, int128.pat_add _ _ hlnot_wf (int128.ofInt_wf 1),
    int128.pat_lnot v hv, int128.pat_ofInt_one]
  have := int128.pat_lt v hv
  omega

theorem int128.toZ_neg (v : int128) (hv : v.wf) : v.neg.toZ = wrap128s (-v.toZ) := by
  have h1 := int128.toZ_eq_wrap_pat _ (int128.neg_wf_int v)
  rw [h1, int128.pat_neg v hv]
  have h2 := int128.toZ_eq_wrap_pat v hv
  have h3 := int128.pat_lt v hv
  simp only [wrap128s] at h2 ⊢
  omega

theorem xor_left_cancel (a x y : Nat) (h : a ^^^ x = a ^^^ y) : x = y := by
  have e1 : a ^^^ (a ^^^ x) = a ^^^ (a ^^^ y) := by rw [h]
  rwa [← Nat.xor_assoc, Nat.xor_self, Nat.zero_xor, ← Nat.xor_assoc, Nat.xor_self,
    Nat.zero_xor] at e1

/-- Claim C1: division identity.  For `uint128` with a nonzero divisor,
`(a / b) * b + (a % b) == a`; for `int128` with a nonzero divisor, excluding
the `I128::MIN / -1` boundary, the same identity holds; and at that boundary
the quotient wraps back: `I128::MIN / -1 == I128::MIN`. -/
theorem claim_C1 :
    (∀ a b : uint128, a.wf → b.wf → ¬ b = uint128.zero →
      ((a.div b).mul b).add (a.mod b) = a) ∧
    (∀ a b : int128, a.wf → b.wf → ¬ b = int128.zero →
      ¬ (a = int128.min_value ∧ b = int128.ofInt (-1)) →
      ((a.div b).mul b).add (a.mod b) = a) ∧
    int128.min_value.div (int128.ofInt (-1)) = int128.min_value := by
  refine ⟨?_, ?_, by decide⟩
  · intro a b ha hb hbz
    have hbeq : b.beq uint128.zero = false := by
      rcases Bool.eq_false_or_eq_true (b.beq uint128.zero) with h | h
      · exact absurd ((uint128.beq_iff _ _).mp h) hbz
      · exact h
    apply uint128.toNat_inj _ _ (uint128.add_wf _ _) ha
    rw [uint128.toNat_add _ _ (uint128.mul_wf _ _) (uint128.mod_wf _ _)]
    simp only [uint128.mod, hbeq, Bool.false_eq_true, if_false]
    rw [uint128.toNat_sub a _ ha (uint128.mul_wf _ _)]
    have h1 := uint128.toNat_lt a ha
    have h2 : ((a.div b).mul b).toNat < 2 ^ 128 := uint128.toNat_lt _ (uint128.mul_wf _ _)
    omega
  · intro a b ha hb hbz _
    exact int128.div_mod_identity a b ha hb hbz

theorem claim_C1_witness :
    (((uint128.from_parts 1 5).div (uint128.ofNat64 2)).mul
        (uint128.ofNat64 2)).add ((uint128.from_parts 1 5).mod (uint128.ofNat64 2))
      = uint128.from_parts 1 5 ∧
    (((int128.ofInt (-7)).div (int128.ofInt 2)).mul (int128.ofInt 2)).add
      ((int128.ofInt (-7)).mod (int128.ofInt 2)) = int128.ofInt (-7) :=
  ⟨claim_C1.1 _ _ (by decide) (by decide) (by decide),
    claim_C1.2.1 _ _ (by decide) (by decide) (by decide) (by decide)⟩

/-- Claim C2: division and modulo by zero return zero for both types; the
operations are total, so no trap or error value exists. -/
theorem claim_C2 :
    (∀ a : uint128, a.div uint128.zero = uint128.zero
      ∧ a.mod uint128.zero = uint128.zero) ∧
    (∀ a : int128, a.div int128.zero = int128.zero
      ∧ a.mod int128.zero = int128.zero) :=
  ⟨fun a => ⟨uint128.div_zero a, uint128.mod_zero a⟩,
    fun a => ⟨int128.div_zero_int a, int128.mod_zero_int a⟩⟩

/-- Claim C3: multiplication is the exact mathematical product reduced
modulo `2^128` (unsigned) or by two's-complement wraparound (signed); at
the boundary, `U128::MAX * 2 == U128::MAX - 1` with exact value
`2^128 - 2`. -/
theorem claim_C3 :
    (∀ a b : uint128, a.wf → b.wf →
      (a.mul b).toNat = a.toNat * b.toNat % 2 ^ 128) ∧
    (∀ a b : int128, a.wf → b.wf → (a.mul b).toZ = wrap128s (a.toZ * b.toZ)) ∧
    uint128.max_value.mul (uint128.ofNat64 2)
      = uint128.max_value.sub uint128.one ∧
    (uint128.max_value.mul (uint128.ofNat64 2)).toNat = 2 ^ 128 - 2 := by
  refine ⟨uint128.toNat_mul, int128.toZ_mul, by decide, by decide⟩

theorem claim_C3_witness :
    ((uint128.ofNat64 10).mul (uint128.ofNat64 10)).toNat
      = (uint128.ofNat64 10).toNat * (uint128.ofNat64 10).toNat % 2 ^ 128 ∧
    ((int128.ofInt (-3)).mul (int128.ofInt 5)).toZ
      = wrap128s ((int128.ofInt (-3)).toZ * (int128.ofInt 5).toZ) :=
  ⟨claim_C3.1 _ _ (by decide) (by decide), claim_C3.2.1 _ _ (by decide) (by decide)⟩

/-- Claim C4: addition computes the low limb wrapping, carries into the
high limb exactly when the wrapped low result is less than `lhs.low()`,
computes the high limb wrapping, and therefore equals the exact sum
reduced modulo `2^128`. -/
theorem claim_C4 :
    ∀ a b : uint128, a.wf → b.wf →
      (a.add b).m_lo = (a.m_lo + b.m_lo) % 2 ^ 64 ∧
      (a.add b).m_hi = (a.m_hi + b.m_hi +
        if (a.m_lo + b.m_lo) % 2 ^ 64 < a.m_lo then 1 else 0) % 2 ^ 64 ∧
      (a.add b).toNat = (a.toNat + b.toNat) % 2 ^ 128 := by
  intro a b ha hb
  refine ⟨?_, ?_, uint128.toNat_add a b ha hb⟩
  · simp only [uint128.add, uint128.from_parts, uint128.low, uint128.high, mask64]
    split <;> simp <;> omega
  · simp only [uint128.add, uint128.from_parts, uint128.low, uint128.high, mask64]
    split <;> simp <;> omega

theorem claim_C4_witness :
    ((uint128.from_parts 0 1).add (uint128.from_parts 0 (2 ^ 64 - 1))).m_lo
        = ((uint128.from_parts 0 1).m_lo + (uint128.from_parts 0 (2 ^ 64 - 1)).m_lo)
          % 2 ^ 64 ∧
    ((uint128.from_parts 0 1).add (uint128.from_parts 0 (2 ^ 64 - 1))).m_hi
        = ((uint128.from_parts 0 1).m_hi + (uint128.from_parts 0 (2 ^ 64 - 1)).m_hi +
          if ((uint128.from_parts 0 1).m_lo + (uint128.from_parts 0 (2 ^ 64 - 1)).m_lo)
              % 2 ^ 64 < (uint128.from_parts 0 1).m_lo then 1 else 0) % 2 ^ 64 ∧
    ((uint128.from_parts 0 1).add (uint128.from_parts 0 (2 ^ 64 - 1))).toNat
        = ((uint128.from_parts 0 1).toNat + (uint128.from_parts 0 (2 ^ 64 - 1)).toNat)
          % 2 ^ 128 :=
  claim_C4 _ _ (by decide) (by decide)

/-- Claim C5: signed right shift is arithmetic.  For shift amounts below
128 the result is the floor division of the value by `2^n` (the
arithmetic-shift reference, covering the 64-bit and 127-bit boundaries);
for amounts at least 128 it is `-1` for negative values and `0`
otherwise; and shifting by zero is the identity. -/
theorem claim_C5 :
    (∀ (x : int128) (n : Nat), x.wf → n < 128 →
      (x.shr n).toZ = Int.fdiv x.toZ (2 ^ n)) ∧
    (∀ (x : int128) (n : Nat), x.wf → 128 ≤ n →
      x.shr n = if x.toZ < 0 then int128.ofInt (-1) else int128.ofInt 0) ∧
    (∀ x : int128, x.shr 0 = x) := by
  refine ⟨int128.shr_fdiv, ?_, ?_⟩
  · intro x n hx h128
    have hne : (n == 0) = false := by
      simp only [beq_eq_false_iff_ne, ne_eq]
      omega
    simp only [int128.shr, hne, Bool.false_eq_true, if_false, if_pos h128]
    by_cases hneg : x.high < 0
    · rw [if_pos hneg, if_pos ((int128.hi_neg_iff x hx).mp hneg)]
    · rw [if_neg hneg,
        if_neg (fun hz => hneg ((int128.hi_neg_iff x hx).mpr hz))]
  · intro x
    rfl

theorem claim_C5_witness :
    (((int128.ofInt (-7)).shr 1).toZ = Int.fdiv (int128.ofInt (-7)).toZ (2 ^ 1)) ∧
    ((int128.ofInt (-7)).shr 130
      = if (int128.ofInt (-7)).toZ < 0 then int128.ofInt (-1) else int128.ofInt 0) :=
  ⟨claim_C5.1 _ 1 (by decide) (by norm_num),
    claim_C5.2.1 _ 130 (by decide) (by norm_num)⟩

/-- Claim C6: signed negation is two's complement, `~value + 1`, computed
on the kernel and wrapping: the value of `-v` is `-toZ v` reduced by
two's-complement wraparound, and negating `I128::MIN` yields `I128::MIN`
with no trap. -/
theorem claim_C6 :
    (∀ v : int128, v.wf → v.neg = (v.lnot).add (int128.ofInt 1)) ∧
    (∀ v : int128, v.wf → v.neg.toZ = wrap128s (-v.toZ)) ∧
    int128.min_value.neg = int128.min_value := by
  exact ⟨int128.neg_eq_lnot_add_one, int128.toZ_neg, by decide⟩

theorem claim_C6_witness :
    ((int128.ofInt 5).neg = ((int128.ofInt 5).lnot).add (int128.ofInt 1)) ∧
    ((int128.ofInt 5).neg.toZ = wrap128s (-(int128.ofInt 5).toZ)) :=
  ⟨claim_C6.1 _ (by decide), claim_C6.2.1 _ (by decide)⟩

/-- Claim C7: decimal formatting renders the canonical base-10 digit
string (the reversed `Nat.digits` expansion, which has no leading zero and
renders 0 as "0"), with a leading minus sign for negative signed values;
in particular `U128::MAX` and `I128::MIN` render to the two 39-digit
reference strings. -/
theorem claim_C7 :
    (∀ v : uint128, v.wf → v.to_string = decimalSpec v.toNat) ∧
    (∀ v : int128, v.wf → v.to_string
      = if v.toZ < 0 then "-" ++ decimalSpec (-v.toZ).toNat
        else decimalSpec v.toZ.toNat) ∧
    uint128.max_value.to_string = "340282366920938463463374607431768211455" ∧
    int128.min_value.to_string = "-170141183460469231731687303715884105728" := by
  refine ⟨uint128.to_string_spec, int128.to_string_spec_int, by decide, by decide⟩

theorem claim_C7_witness :
    ((uint128.ofNat64 123).to_string = decimalSpec (uint128.ofNat64 123).toNat) ∧
    ((int128.ofInt (-45)).to_string
      = if (int128.ofInt (-45)).toZ < 0 then
          "-" ++ decimalSpec (-(int128.ofInt (-45)).toZ).toNat
        else decimalSpec (int128.ofInt (-45)).toZ.toNat) :=
  ⟨claim_C7.1 _ (by decide), claim_C7.2.1 _ (by decide)⟩

/-- Claim C8 as stated is false: adding `from_parts(0,0)` to
`from_parts(0, u64::MAX)` produces `from_parts(0, u64::MAX)` (no carry can
occur when one addend is zero), not `from_parts(1, 0)`. -/
theorem claim_C8_counterexample :
    (uint128.from_parts 0 0).add (uint128.from_parts 0 (2 ^ 64 - 1))
      = uint128.from_parts 0 (2 ^ 64 - 1) ∧
    ¬ (uint128.from_parts 0 0).add (uint128.from_parts 0 (2 ^ 64 - 1))
      = uint128.from_parts 1 0 := by
  decide

/-- Claim C8, amended: the carry-propagation scenario holds with a one in
the low limb of the first operand:
`U128::from_parts(0,1) + U128::from_parts(0, u64::MAX) == U128::from_parts(1, 0)`. -/
theorem claim_C8 :
    (uint128.from_parts 0 1).add (uint128.from_parts 0 (2 ^ 64 - 1))
      = uint128.from_parts 1 0 := by
  decide

/-- Claim C9 as stated is false: the hash shifts the high limb's hash left
by one on a 64-bit `size_t`, discarding its top bit, so the values
`from_parts(0, 0)` and `from_parts(2^63, 0)` have equal low limbs,
different high limbs, and equal hashes. -/
theorem claim_C9_counterexample :
    (uint128.from_parts 0 0).low = (uint128.from_parts (2 ^ 63) 0).low ∧
    ¬ (uint128.from_parts 0 0).high = (uint128.from_parts (2 ^ 63) 0).high ∧
    (uint128.from_parts 0 0).hashVal = (uint128.from_parts (2 ^ 63) 0).hashVal := by
  decide

/-- Claim C9, amended: two values of the same type with equal low limbs
hash differently provided their high limbs differ modulo `2^63` — the
shift by one discards the top bit of the high limb's hash, so limbs that
agree on their low 63 bits can collide. -/
theorem claim_C9 :
    (∀ a b : uint128, a.wf → b.wf → a.low = b.low →
      ¬ a.high % 2 ^ 63 = b.high % 2 ^ 63 → ¬ a.hashVal = b.hashVal) ∧
    (∀ a b : int128, a.wf → b.wf → a.low = b.low →
      ¬ toUInt64 a.high % 2 ^ 63 = toUInt64 b.high % 2 ^ 63 →
      ¬ a.hashVal = b.hashVal) := by
  constructor
  · intro a b ha hb hlow hmod heq
    apply hmod
    simp only [uint128.hashVal, hash64, uint128.low, uint128.high, mask64] at heq hlow ⊢
    rw [hlow] at heq
    have e1 := xor_left_cancel _ _ _ heq
    simp only [Nat.shiftLeft_eq] at e1
    omega
  · intro a b ha hb hlow hmod heq
    apply hmod
    simp only [int128.hashVal, hash64, int128.low, int128.high, mask64] at heq hlow ⊢
    rw [hlow] at heq
    have e1 := xor_left_cancel _ _ _ heq
    simp only [Nat.shiftLeft_eq] at e1
    omega

theorem claim_C9_witness :
    ¬ (uint128.from_parts 1 0).hashVal = (uint128.from_parts 2 0).hashVal :=
  claim_C9.1 _ _ (by decide) (by decide) (by decide) (by decide)

/-- Claim C10: the boolean conversion tests both limbs, so it is true
exactly on nonzero values — in particular true on `from_parts(1, 0)` even
though every narrowing conversion of that value truncates the low limb
and yields zero — and `operator!` is true exactly on zero. -/
theorem claim_C10 :
    (∀ v : uint128, v.toBool = true ↔ ¬ v = uint128.zero) ∧
    (∀ v : int128, v.toBool = true ↔ ¬ v = int128.zero) ∧
    (uint128.from_parts 1 0).toBool = true ∧
    (uint128.from_parts 1 0).low = 0 ∧
    (uint128.from_parts 1 0).toU64 = 0 ∧
    (uint128.from_parts 1 0).toU32 = 0 ∧
    (uint128.from_parts 1 0).toU16 = 0 ∧
    (uint128.from_parts 1 0).toU8 = 0 ∧
    (∀ v : uint128, v.bang = true ↔ v = uint128.zero) ∧
    (∀ v : int128, v.bang = true ↔ v = int128.zero) := by
  refine ⟨?_, ?_, by decide, by decide, by decide, by decide, by decide, by decide, ?_, ?_⟩
  · intro v
    cases v
    simp [uint128.toBool, uint128.zero, uint128.mk.injEq]
    omega
  · intro v
    cases v
    simp [int128.toBool, int128.zero, int128.mk.injEq]
    omega
  · intro v
    cases v
    simp [uint128.bang, uint128.zero, uint128.low, uint128.high, uint128.mk.injEq]
    omega
  · intro v
    cases v
    simp [int128.bang, int128.zero, int128.low, int128.high, int128.mk.injEq]
    omega

end arc
